import Mathlib

/-!
Shallow embedding of the PDF outline-extraction pipeline from
src/process_pdfs.py (functions detect_headers_and_footers, is_line_in_table,
get_dominant_style, is_mostly_uppercase, get_page_layout, process_pdf),
together with theorems settling the specification claims about it.

Modelling conventions, fixed once here:
- Python floats (coordinates, font sizes, thresholds such as 0.4, 0.2, 0.85,
  0.5, 2.5, 0.7, 0.8, 0.3, 0.1) are modelled exactly as rational numbers.
- Python strings are Lean Strings; str.strip, str.lower, str.split and the
  regular-expression tests used by the source are re-implemented structurally
  over character lists so that every definition evaluates by kernel reduction.
  Character classes (isalpha, isupper, word characters) use the ASCII
  semantics of Char.isAlpha / Char.isUpper / Char.isAlphanum.
- A fitz page yields two views used by the source: page.get_text("blocks")
  (flat tuples x0, y0, x1, y1, text) and page.get_text("dict")["blocks"]
  (blocks that may carry a list of lines made of spans), plus
  page.find_tables() bounding boxes.  The Page structure below carries all
  three, which is exactly the document-layout-provider interface of the spec.
- Counter.most_common(1) in CPython returns the first key, in insertion
  order, among those with maximal count; firstMax below reproduces that.
- The line identity string f"{page}-{y0}" is injective in the pair
  (page, y0) (the page number contains no dash, so the first dash separates
  the two components); it is modelled as the pair itself.
-/

namespace PdfOutline

/- Batteries marks the rational field operations irreducible, which would
stop concrete evaluation inside decide; restore the default reducibility
locally so that closed facts about concrete documents evaluate. -/
attribute [local semireducible] Rat.mul Rat.add Rat.sub Rat.inv

/-! ## Generic association-counter helpers (Counter, most_common) -/

/-- Number of occurrences of a value in a list. -/
def cnt {α : Type} [DecidableEq α] (t : α) : List α → Nat
  | [] => 0
  | x :: r => (if x = t then 1 else 0) + cnt t r

/-- Add weight w to key k in an association list, preserving first-insertion
order of keys; models a CPython Counter update. -/
def bump {α : Type} [DecidableEq α] (k : α) (w : Nat) :
    List (α × Nat) → List (α × Nat)
  | [] => [(k, w)]
  | p :: r => if p.1 = k then (p.1, p.2 + w) :: r else p :: bump k w r

/-- Look a key up in an association list. -/
def alookup {α : Type} [DecidableEq α] (t : α) : List (α × Nat) → Option Nat
  | [] => none
  | p :: r => if p.1 = t then some p.2 else alookup t r

/-- Build the occurrence counter of a list, keys in first-appearance order;
models Counter(iterable). -/
def tally {α : Type} [DecidableEq α] (l : List α) : List (α × Nat) :=
  l.foldl (fun acc t => bump t 1 acc) []

/-- First entry with maximal count, in list order; models the tie-breaking of
Counter.most_common(1) (ties go to the earliest-inserted key). -/
def firstMax {α : Type} : List (α × Nat) → Option (α × Nat)
  | [] => none
  | p :: r =>
    match firstMax r with
    | none => some p
    | some q => if p.2 < q.2 then some q else some p

/-- Keys of an association list are pairwise distinct. -/
def keysNodup {α : Type} (l : List (α × Nat)) : Prop :=
  (l.map Prod.fst).Nodup

/-! ## Generic stable insertion sort (Python sorted is a stable sort; for the
total preorders used below the stable sorted permutation is unique, so this
insertion sort computes the same list as Python sorted). -/

/-- Insert a into a sorted list, before the first element not le-below it;
stable for elements comparing equal. -/
def insertLe {α : Type} (le : α → α → Bool) (a : α) : List α → List α
  | [] => [a]
  | b :: l => if le a b then a :: b :: l else b :: insertLe le a l

/-- Stable insertion sort by a boolean total preorder. -/
def sortBy {α : Type} (le : α → α → Bool) : List α → List α
  | [] => []
  | x :: l => insertLe le x (sortBy le l)

/-- Index of the first occurrence of a value in a list. -/
def firstIdx {α : Type} [DecidableEq α] (s : α) : List α → Option Nat
  | [] => none
  | t :: r => if t = s then some 0 else (firstIdx s r).map (· + 1)

/-- Python " ".join. -/
def joinSpace : List String → String
  | [] => ""
  | a :: r => r.foldl (fun acc t => acc ++ " " ++ t) a

/-! ## String helpers re-implementing the Python primitives used -/

/-- Drop leading and trailing whitespace characters; Python str.strip(). -/
def trimChars (l : List Char) : List Char :=
  ((l.dropWhile Char.isWhitespace).reverse.dropWhile Char.isWhitespace).reverse

/-- Python str.strip(). -/
def pyStrip (s : String) : String := String.mk (trimChars s.toList)

/-- Python str.lower() (ASCII). -/
def lowerChars (s : String) : List Char := s.toList.map Char.toLower

/-- Does pat occur as a contiguous run at the start of s? -/
def matchesAt : List Char → List Char → Bool
  | [], _ => true
  | _ :: _, [] => false
  | p :: ps, c :: cs => p == c && matchesAt ps cs

/-- Substring containment over character lists; Python "pat in s". -/
def containsSub (pat : List Char) : List Char → Bool
  | [] => matchesAt pat []
  | c :: cs => matchesAt pat (c :: cs) || containsSub pat cs

/-- Count maximal non-whitespace runs; the recursion carries whether the
previous character was inside a word. -/
def countWordsGo (inWord : Bool) : List Char → Nat
  | [] => 0
  | c :: r =>
    if Char.isWhitespace c then countWordsGo false r
    else (if inWord then 0 else 1) + countWordsGo true r

/-- Python len(s.split()): number of whitespace-separated tokens. -/
def wordCount (s : String) : Nat := countWordsGo false s.toList

/-- Last character of a string, if any. -/
def lastChar (s : String) : Option Char := s.toList.getLast?

/-- Word character in the sense of the regex class \w (ASCII). -/
def isWordChar (c : Char) : Bool := c.isAlphanum || c == '_'

/-- Is the previous character absent or a non-word character (a \b site)? -/
def prevNonWord : Option Char → Bool
  | none => true
  | some p => !isWordChar p

/-- Search for the regex \b\d{4}\b: a run of exactly four digits delimited by
non-word characters or the ends of the string. -/
def hasYearRun (prev : Option Char) : List Char → Bool
  | [] => false
  | c :: rest =>
    (c.isDigit && prevNonWord prev &&
      (match rest with
       | c2 :: c3 :: c4 :: rest2 =>
         c2.isDigit && c3.isDigit && c4.isDigit &&
           (match rest2 with
            | [] => true
            | n :: _ => !isWordChar n)
       | _ => false)) || hasYearRun (some c) rest

/-- Three-letter month abbreviations tested by the source. -/
def monthList : List String :=
  ["jan", "feb", "mar", "apr", "may", "jun", "jul",
   "aug", "sep", "oct", "nov", "dec"]

/-- Does the lowercased text contain a month abbreviation? -/
def hasMonth (lower : List Char) : Bool :=
  monthList.any (fun m => containsSub m.toList lower)

/-- Tail of the regex ^Page \d+\s*of\s*\d+$ after the literal "of". -/
def parsePNMdigits (l : List Char) : Bool :=
  !(l.takeWhile Char.isDigit).isEmpty && (l.dropWhile Char.isDigit).isEmpty

/-- Middle of the regex ^Page \d+\s*of\s*\d+$: digits, optional blanks, "of",
optional blanks, digits to the end. -/
def parsePNMafterPage (l : List Char) : Bool :=
  !(l.takeWhile Char.isDigit).isEmpty &&
    (match (l.dropWhile Char.isDigit).dropWhile Char.isWhitespace with
     | 'o' :: 'f' :: rest => parsePNMdigits (rest.dropWhile Char.isWhitespace)
     | _ => false)

/-- re.match(r"^Page \d+\s*of\s*\d+$", t, re.I), evaluated on the lowercased
text. -/
def isPageNofM (t : String) : Bool :=
  match lowerChars t with
  | 'p' :: 'a' :: 'g' :: 'e' :: ' ' :: rest => parsePNMafterPage rest
  | _ => false

/-- Date-line heuristic of the source: a four-digit year, a month
abbreviation, and at most four whitespace-separated tokens. -/
def isDateLine (t : String) : Bool :=
  let lower := lowerChars t
  hasYearRun none lower && hasMonth lower && decide (wordCount t ≤ 4)

/-- re.fullmatch(r"[\d\W_]+", t): nonempty and containing no letter. -/
def isDigitPunct (t : String) : Bool :=
  !t.toList.isEmpty && t.toList.all (fun c => !c.isAlpha)

/-- Python round() on a rational: round half to even (banker's rounding). -/
def pyRound (q : ℚ) : ℤ :=
  let f : ℤ := q.num.fdiv (q.den : ℤ)
  let r : ℚ := q - (f : ℚ)
  if r < 1/2 then f
  else if (1 : ℚ)/2 < r then f + 1
  else if f % 2 = 0 then f else f + 1

/-! ## Data model: the document-layout-provider interface -/

/-- A text span: one run of characters in a single font at a single size. -/
structure Span where
  text : String
  font : String
  size : ℚ
deriving DecidableEq, Repr

/-- A raw line from page.get_text("dict"): a bounding box and its spans. -/
structure SrcLine where
  x0 : ℚ
  y0 : ℚ
  x1 : ℚ
  y1 : ℚ
  spans : List Span
deriving DecidableEq, Repr

/-- A dict-view block; the "lines" key may be absent. -/
structure DictBlock where
  lines : Option (List SrcLine)
deriving DecidableEq, Repr

/-- A tuple from page.get_text("blocks"): bounding box and block text. -/
structure BlockTuple where
  x0 : ℚ
  y0 : ℚ
  x1 : ℚ
  y1 : ℚ
  text : String
deriving DecidableEq, Repr

/-- A table bounding box from page.find_tables(). -/
structure Rect where
  x0 : ℚ
  y0 : ℚ
  x1 : ℚ
  y1 : ℚ
deriving DecidableEq, Repr

/-- One page as delivered by the document layout provider. -/
structure Page where
  width : ℚ
  height : ℚ
  blocks : List BlockTuple
  dictBlocks : List DictBlock
  tables : List Rect
deriving DecidableEq, Repr

/-- A parsed document: its pages in order. -/
abbrev Doc := List Page

/-- A style is the pair (rounded font size, is bold). -/
abbrev Style := ℤ × Bool

/-- A retained line of the corpus, as built by the extraction loop of
process_pdf (page, stripped text, dominant style, bbox, column index). -/
structure Line where
  page : Nat
  text : String
  style : Style
  x0 : ℚ
  y0 : ℚ
  x1 : ℚ
  y1 : ℚ
  column : Nat
deriving DecidableEq, Repr

/-- The identity key f"{page_num}-{line.bbox[1]}"; the formatted string is
injective in the pair (page, y0), so the pair itself is the model. -/
abbrev LineId := Nat × ℚ

/-- The identity of a line. -/
def lineId (l : Line) : LineId := (l.page, l.y0)

/-- A heading candidate that received a level: the fields of the line that
the merge loop reads or mutates, plus the numeric level n of "Hn". -/
structure Heading where
  page : Nat
  column : Nat
  style : Style
  y0 : ℚ
  y1 : ℚ
  text : String
  level : Nat
deriving DecidableEq, Repr

/-- An outline entry of the output object. -/
structure Entry where
  level : String
  text : String
  page : Nat
deriving DecidableEq, Repr

/-- The output object {"title": ..., "outline": [...]}. -/
structure Result where
  title : String
  outline : List Entry
deriving DecidableEq, Repr

/-! ## Source helpers (process_pdfs.py lines 10 to 116) -/

/-- Keys 4 ≤ page count, start page, end page and band test of
detect_headers_and_footers (source lines 15 to 29). -/
def hfStart (doc : Doc) : Nat := doc.length / 4

/-- End page of the header/footer scan: pageCount - floor(pageCount/4). -/
def hfEnd (doc : Doc) : Nat := doc.length - hfStart doc

/-- Pages scanned by detect_headers_and_footers: the middle half. -/
def hfScanned (doc : Doc) : List Page :=
  (doc.drop (hfStart doc)).take (hfEnd doc - hfStart doc)

/-- Normalisation b[4].strip().replace(chr(10), chr(32)) of a block text. -/
def hfNormText (s : String) : String :=
  String.mk ((trimChars s.toList).map (fun c => if c == '\n' then ' ' else c))

/-- Shape filter on a normalised block text: 5 < len < 100 and no trailing
period (source line 31). -/
def hfQualifies (t : String) : Bool :=
  decide (5 < t.length) && decide (t.length < 100) && !(lastChar t == some '.')

/-- Qualifying normalised texts of the top-20 percent / bottom-15 percent
bands of one page (source lines 26 to 32). -/
def pageBandTexts (p : Page) : List String :=
  p.blocks.filterMap (fun b =>
    if b.y0 < p.height * (20/100 : ℚ) ∨ p.height * (85/100 : ℚ) < b.y1 then
      let t := hfNormText b.text
      if hfQualifies t then some t else none
    else none)

/-- All qualifying band texts over the scanned pages, in scan order. -/
def hfTexts (doc : Doc) : List String :=
  (hfScanned doc).flatMap pageBandTexts

/-- detect_headers_and_footers (source lines 10 to 42): texts of the middle
half's page bands whose occurrence count reaches 0.4 times the scanned page
count.  The Python set is modelled as the list of its elements (used for
membership only). -/
def detect_headers_and_footers (doc : Doc) : List String :=
  if doc.length < 4 then []
  else
    (tally (hfTexts doc)).filterMap (fun p =>
      if ((hfEnd doc - hfStart doc : ℕ) : ℚ) * (4/10) ≤ (p.2 : ℚ)
      then some p.1 else none)

/-- is_line_in_table (source lines 44 to 55): the line bbox is contained in
some table bbox of the page. -/
def is_line_in_table (ln : SrcLine) (tables : List Rect) : Bool :=
  tables.any (fun t =>
    decide (t.x0 ≤ ln.x0) && decide (t.y0 ≤ ln.y0) &&
    decide (ln.x1 ≤ t.x1) && decide (ln.y1 ≤ t.y1))

/-- Bold test of get_dominant_style: the regex bold|black|heavy searched
case-insensitively in the font name (source line 68). -/
def isBoldFont (f : String) : Bool :=
  let lf := lowerChars f
  containsSub "bold".toList lf || containsSub "black".toList lf ||
    containsSub "heavy".toList lf

/-- Style of one span: rounded size and boldness (source line 69). -/
def styleOfSpan (sp : Span) : Style := (pyRound sp.size, isBoldFont sp.font)

/-- get_dominant_style (source lines 57 to 74): the style covering the most
stripped characters, ties to the first-seen style; (10, false) when the line
has no spans. -/
def get_dominant_style (ln : SrcLine) : Style :=
  match ln.spans with
  | [] => (10, false)
  | _ :: _ =>
    let counts := ln.spans.foldl
      (fun acc sp => bump (styleOfSpan sp) (pyStrip sp.text).length acc) []
    match firstMax counts with
    | some p => p.1
    | none => (10, false)

/-- is_mostly_uppercase (source lines 76 to 84): false when no letters,
else the uppercase ratio among letters exceeds 0.8. -/
def is_mostly_uppercase (s : String) : Bool :=
  let letters := s.toList.filter Char.isAlpha
  if letters.isEmpty then false
  else
    let ups := letters.filter Char.isUpper
    decide ((8 : ℚ)/10 < (ups.length : ℚ) / (letters.length : ℚ))

/-- get_page_layout (source lines 86 to 116): 2 when both sides of the page
midpoint carry more than 30 percent of the sided blocks, else 1. -/
def get_page_layout (p : Page) : Nat :=
  if p.blocks.isEmpty then 1
  else
    let mid := p.width / 2
    let left := (p.blocks.filter (fun b => decide (b.x1 < mid))).length
    let right := (p.blocks.filter (fun b => decide (mid < b.x0))).length
    let tot := left + right
    if tot = 0 then 1
    else if 0 < left ∧ 0 < right ∧
        (3 : ℚ)/10 < (left : ℚ)/(tot : ℚ) ∧ (3 : ℚ)/10 < (right : ℚ)/(tot : ℚ)
      then 2 else 1

/-! ## Line extraction (process_pdf, source lines 134 to 187) -/

/-- Joined, stripped span text of a raw line (source line 153). -/
def lineText (ln : SrcLine) : String :=
  pyStrip (String.join (ln.spans.map Span.text))

/-- The per-line body of the extraction loop (source lines 149 to 187):
either the retained Line record or none when a filter drops the line. -/
def extractLine (pageNum : Nat) (ignored : List String) (tables : List Rect)
    (ncols : Nat) (mid : ℚ) (ln : SrcLine) : Option Line :=
  if ln.spans.isEmpty then none
  else if is_line_in_table ln tables then none
  else
    let t := lineText ln
    if t = "" then none
    else if t ∈ ignored then none
    else if isDateLine t then none
    else if isPageNofM t then none
    else
      let style := get_dominant_style ln
      let col : Nat := if ncols = 2 ∧ mid < (ln.x0 + ln.x1) / 2 then 1 else 0
      some { page := pageNum, text := t, style := style,
             x0 := ln.x0, y0 := ln.y0, x1 := ln.x1, y1 := ln.y1,
             column := col }

/-- Retained lines of one page, in block and line order. -/
def extractPageLines (pageNum : Nat) (p : Page) (ignored : List String) :
    List Line :=
  let ncols := get_page_layout p
  p.dictBlocks.flatMap (fun b =>
    match b.lines with
    | none => []
    | some lns =>
      lns.filterMap (extractLine pageNum ignored p.tables ncols (p.width / 2)))

/-- The all_lines corpus over the whole document (source lines 134 to 187);
table areas and the ignore set have already been fixed document-wide. -/
def extractAllLines (doc : Doc) (ignored : List String) : List Line :=
  doc.enum.flatMap (fun pi => extractPageLines pi.1 pi.2 ignored)

/-- style_counts as accumulated at source line 167: one bump per retained
line, in extraction order, before any title line is removed. -/
def styleCounts (lines : List Line) : List (Style × Nat) :=
  lines.foldl (fun acc l => bump l.style 1 acc) []

/-! ## Title identification (source lines 192 to 242) -/

/-- Sort key (column, y0) of the page-0 top-half candidates. -/
def titleKeyLe (a b : Line) : Bool :=
  decide (a.column < b.column) ||
    (a.column == b.column && decide (a.y0 ≤ b.y0))

/-- page_0_lines_top_half (source lines 193 to 197). -/
def titleCandidates (doc : Doc) (lines : List Line) : List Line :=
  let h0 := ((doc.head?.map Page.height).getD 1000)
  sortBy titleKeyLe
    (lines.filter (fun l => l.page == 0 && decide (l.y0 < h0 / 2)))

/-- Maximum rounded size over a nonempty candidate list, given head and
tail; Python max(sizes). -/
def lineMaxSize (c : Line) (rest : List Line) : ℤ :=
  rest.foldl (fun m l => max m l.style.1) c.style.1

/-- Minimum rounded size over a nonempty candidate list; Python min(sizes). -/
def lineMinSize (c : Line) (rest : List Line) : ℤ :=
  rest.foldl (fun m l => min m l.style.1) c.style.1

/-- The accumulation loop of the size-spread strategy (source lines 227 to
235) after its unconditional first iteration: stop at two accumulated lines,
or at a y0 gap above 2.5 times the previous size, or at a size below 0.7
times the size of the first accumulated line. -/
def titleLoop (firstSize : ℤ) : Line → Nat → List Line → List Line
  | _, _, [] => []
  | last, count, c :: rest =>
    if 2 ≤ count then []
    else if (last.style.1 : ℚ) * (5/2) < |c.y0 - last.y0| then []
    else if (c.style.1 : ℚ) < (firstSize : ℚ) * (7/10) then []
    else c :: titleLoop firstSize c (count + 1) rest

/-- The size-spread strategy (source lines 222 to 236): start at the first
candidate of maximal size and greedily accumulate. -/
def titleFromSpread (cands : List Line) (maxS : ℤ) : List Line :=
  match cands.dropWhile (fun l => decide (l.style.1 ≠ maxS)) with
  | [] => []
  | f :: rest => f :: titleLoop f.style.1 f 1 rest

/-- The bold-and-centered fallback for near-uniform sizes (source lines 208
to 221): up to the first two bold candidates whose horizontal midpoint is
within 10 percent of page width from the page center. -/
def titleFallback (doc : Doc) (cands : List Line) : String × List LineId :=
  let w := ((doc.head?.map Page.width).getD 1000)
  let cb := cands.filter (fun l =>
    l.style.2 && decide (|(l.x0 + l.x1) / 2 - w / 2| < w * (1/10)))
  match cb with
  | [] => ("", [])
  | [a] => (a.text, [lineId a])
  | a :: b :: _ => (a.text ++ " " ++ b.text, [lineId a, lineId b])

/-- The whole title-identification step (source lines 192 to 238): the title
string and the identities of the consumed lines.  With a nonempty candidate
list no exception can occur inside the Python try block (max, min and next
all act on nonempty data), so the except branch is unreachable and the
embedding is total. -/
def titleResolve (doc : Doc) (lines : List Line) : String × List LineId :=
  match titleCandidates doc lines with
  | [] => ("", [])
  | c :: rest =>
    let maxS := lineMaxSize c rest
    let minS := lineMinSize c rest
    if maxS - minS < 1 then titleFallback doc (c :: rest)
    else
      let tls := titleFromSpread (c :: rest) maxS
      (joinSpace (tls.map Line.text), tls.map lineId)

/-- Removal of the consumed title lines (source lines 240 to 242), keyed on
the identity string and guarded by the truthiness of the id set. -/
def removeTitleLines (lines : List Line) (ids : List LineId) : List Line :=
  if ids.isEmpty then lines
  else lines.filter (fun l => decide (lineId l ∉ ids))

/-! ## Heading detection (source lines 244 to 295) -/

/-- Body-style deduction (source lines 245 to 250): the most frequent
non-bold style if one exists, else the most frequent style, else
(10, false). -/
def bodyStyle (scounts : List (Style × Nat)) : Style :=
  let nonBold := scounts.filter (fun p => !p.1.2)
  match firstMax nonBold with
  | some p => p.1
  | none =>
    match firstMax scounts with
    | some p => p.1
    | none => (10, false)

/-- One line satisfying the page-0 paragraph test (source lines 254 to
260). -/
def paragraphGateLine (body : Style) (l : Line) : Bool :=
  l.page == 0 && decide (l.style = body) && decide (30 ≤ wordCount l.text) &&
    !is_mostly_uppercase l.text && decide (30 < l.text.length)

/-- page_0_has_paragraphs (source lines 253 to 260). -/
def page0HasParagraphs (lines : List Line) (body : Style) : Bool :=
  lines.any (paragraphGateLine body)

/-- True when the last character is one of . , ; (source line 274). -/
def endsInStop (t : String) : Bool :=
  match lastChar t with
  | some c => c == '.' || c == ',' || c == ';'
  | none => false

/-- The candidate filter of source lines 266 to 275. -/
def isHeadingShape (body : Style) (p0 : Bool) (l : Line) : Bool :=
  (p0 || l.page != 0) &&
  (decide (body.1 < l.style.1) || (l.style.2 && !body.2)) &&
  decide (3 < l.text.length) && decide (l.text.length < 250) &&
  decide (wordCount l.text ≤ 25) &&
  !isDigitPunct l.text &&
  !(endsInStop l.text && decide (15 < wordCount l.text))

/-- initial_candidates (source lines 264 to 275). -/
def initialCandidates (lines : List Line) (body : Style) (p0 : Bool) :
    List Line :=
  lines.filter (isHeadingShape body p0)

/-- Descending (size, boldness) order on styles: larger size first, bold
before non-bold at equal size; the sort key of source line 281.  The key is
injective on styles, so the sorted list does not depend on the iteration
order of the Python set. -/
def styleLe (a b : Style) : Bool :=
  decide (b.1 < a.1) || (decide (a.1 = b.1) && (a.2 || !b.2))

/-- heading_styles (source line 281): distinct candidate styles sorted by
descending (size, boldness). -/
def headingStyles (cands : List Line) : List Style :=
  sortBy styleLe (cands.map Line.style).dedup

/-- style_to_level.get (source line 282): the numeric level of a style, some
(i+1) when the style is among the first three sorted styles, none
otherwise. -/
def styleLevel (hstyles : List Style) (s : Style) : Option Nat :=
  match firstIdx s (hstyles.take 3) with
  | some i => some (i + 1)
  | none => none

/-- The level string f"H{n}". -/
def levelName (n : Nat) : String := "H" ++ toString n

/-- Style A ranks strictly above style B in the descending (size, boldness)
order: larger size, or equal size with A bold and B not. -/
def rankAbove (A B : Style) : Prop :=
  B.1 < A.1 ∨ (A.1 = B.1 ∧ A.2 = true ∧ B.2 = false)

instance (A B : Style) : Decidable (rankAbove A B) := by
  unfold rankAbove; infer_instance

/-- The heading record carried into the merge loop, from a candidate line
and its numeric level. -/
def mkHeading (l : Line) (n : Nat) : Heading :=
  { page := l.page, column := l.column, style := l.style,
    y0 := l.y0, y1 := l.y1, text := l.text, level := n }

/-- refined_headings (source lines 287 to 295): candidates whose style got a
level, then the defensive page-0 refilter. -/
def refineHeadings (cands : List Line) (hstyles : List Style) (p0 : Bool) :
    List Heading :=
  let r := cands.filterMap (fun c =>
    (styleLevel hstyles c.style).map (mkHeading c))
  if p0 then r else r.filter (fun h => h.page ≠ 0)

/-- Sort key (page, column, y0) of source line 298. -/
def headingLe (a b : Heading) : Bool :=
  decide (a.page < b.page) ||
    (a.page == b.page &&
      (decide (a.column < b.column) ||
        (a.column == b.column && decide (a.y0 ≤ b.y0))))

/-! ## Final merge walk (source lines 297 to 315).  In the Python loop the
merged dict current is mutated in place: its text grows and its y1 becomes
the y1 of the last absorbed line, so the gap test against
sorted_headings[j-1]["y1"] is exactly a test against the accumulated
current's y1.  The walk below carries that accumulated current. -/

/-- The merge guard of source lines 306 to 308: same page, column and style
as the accumulated current, and a y0 gap from the previous line's bottom
edge below half the current size (size is the first style component). -/
def mergeCond (cur next : Heading) : Bool :=
  next.page == cur.page && next.column == cur.column &&
  decide (next.style = cur.style) &&
  decide (|next.y0 - cur.y1| < (cur.style.1 : ℚ) * (1/2))

/-- The mutation of source lines 309 to 310: extend the text and adopt the
absorbed line's bottom edge. -/
def absorb (cur next : Heading) : Heading :=
  { cur with text := cur.text ++ " " ++ next.text, y1 := next.y1 }

/-- The outline entry emitted for a finished current (source line 314). -/
def entryOf (cur : Heading) : Entry :=
  { level := levelName cur.level, text := pyStrip cur.text, page := cur.page }

/-- The nested merge loops (source lines 300 to 315), one entry per run of
absorbed lines. -/
def walk (cur : Heading) : List Heading → List Entry
  | [] => [entryOf cur]
  | n :: rest =>
    if mergeCond cur n then walk (absorb cur n) rest
    else entryOf cur :: walk n rest

/-- The outline of a sorted heading list. -/
def buildOutline : List Heading → List Entry
  | [] => []
  | c :: rest => walk c rest

/-! ## The whole pipeline: process_pdf (source lines 118 to 317) -/

/-- process_pdf.  Mirrors the source statement for statement:
detect_headers_and_footers first, the extraction loop (which accumulates
style_counts before any removal), the title step, the removal of consumed
title lines, body-style deduction from the pre-removal counts, the page-0
paragraph gate, candidate filtering, level assignment, the defensive page-0
refilter, the (page, column, y0) sort, and the final merge walk. -/
def process_pdf (doc : Doc) : Result :=
  let ignored := detect_headers_and_footers doc
  let all_lines := extractAllLines doc ignored
  if all_lines.isEmpty then { title := "", outline := [] }
  else
    let scounts := styleCounts all_lines
    let tr := titleResolve doc all_lines
    let lines2 := removeTitleLines all_lines tr.2
    let body := bodyStyle scounts
    let p0 := page0HasParagraphs lines2 body
    let initial := initialCandidates lines2 body p0
    if initial.isEmpty then { title := tr.1, outline := [] }
    else
      let hstyles := headingStyles initial
      let refined := refineHeadings initial hstyles p0
      { title := tr.1, outline := buildOutline (sortBy headingLe refined) }

/-! ## Named pipeline stages.  Each is the very composition appearing inside
process_pdf, named so that theorems can speak about intermediate values. -/

/-- The whole retained corpus, title lines still included. -/
def allRetainedLines (doc : Doc) : List Line :=
  extractAllLines doc (detect_headers_and_footers doc)

/-- The body style the pipeline deduces: computed from the style counts of
the whole retained corpus, accumulated before title-line removal. -/
def pipelineBodyStyle (doc : Doc) : Style :=
  bodyStyle (styleCounts (allRetainedLines doc))

/-- Identities of the lines consumed by title resolution. -/
def titleIds (doc : Doc) : List LineId :=
  (titleResolve doc (allRetainedLines doc)).2

/-- The corpus after title-line removal. -/
def linesAfterTitle (doc : Doc) : List Line :=
  removeTitleLines (allRetainedLines doc) (titleIds doc)

/-- The page-0 paragraph gate of the pipeline. -/
def pipelineP0 (doc : Doc) : Bool :=
  page0HasParagraphs (linesAfterTitle doc) (pipelineBodyStyle doc)

/-- The initial heading candidates of the pipeline. -/
def pipelineInitial (doc : Doc) : List Line :=
  initialCandidates (linesAfterTitle doc) (pipelineBodyStyle doc)
    (pipelineP0 doc)

/-- The refined headings of the pipeline. -/
def pipelineRefined (doc : Doc) : List Heading :=
  refineHeadings (pipelineInitial doc) (headingStyles (pipelineInitial doc))
    (pipelineP0 doc)

/-- The sorted heading list the merge walk consumes: every fragment of every
outline entry is an element of this list. -/
def headingFragments (doc : Doc) : List Heading :=
  sortBy headingLe (pipelineRefined doc)

/-! ## Run decomposition of the merge walk, for reasoning about merging. -/

/-- The fragments absorbed into the accumulated current, and the unconsumed
remainder; the inner while loop of source lines 304 to 313. -/
def grabRun (cur : Heading) : List Heading → List Heading × List Heading
  | [] => ([], [])
  | n :: rest =>
    if mergeCond cur n then
      let p := grabRun (absorb cur n) rest
      (n :: p.1, p.2)
    else ([], n :: rest)

/-- Decomposition of a heading list into maximal merge runs, each given as
(run start, absorbed fragments); fuelled by the list length. -/
def runsFuel : Nat → List Heading → List (Heading × List Heading)
  | 0, _ => []
  | _, [] => []
  | Nat.succ f, c :: rest =>
    let p := grabRun c rest
    (c, p.1) :: runsFuel f p.2

/-- The merge runs of a heading list. -/
def runs (hs : List Heading) : List (Heading × List Heading) :=
  runsFuel hs.length hs

/-- The outline entry a run produces: the entry of the fully absorbed
current. -/
def entryOfRun (c : Heading) (run : List Heading) : Entry :=
  entryOf (run.foldl absorb c)

/-- The merge-claim hypothesis on two adjacent sorted headings: same page,
column and style, and the later line's y0 is within half the size of the
earlier line's bottom edge y1. -/
def pairAdjacent (a b : Heading) : Prop :=
  b.page = a.page ∧ b.column = a.column ∧ b.style = a.style ∧
    |b.y0 - a.y1| < (a.style.1 : ℚ) * (1/2)

instance (a b : Heading) : Decidable (pairAdjacent a b) := by
  unfold pairAdjacent; infer_instance

/-! ## Definitions following claim wordings, for comparison with the code -/

/-- The accumulation the specification describes for the size-spread title
strategy, written from its words: start at the first candidate of maximal
size, take at most two lines, stop at the first line whose y0 gap from the
previous accumulated line exceeds 2.5 times the previous size or whose size
is below 0.7 times the maximum size. -/
def titleSpecLines (cands : List Line) (maxS : ℤ) : List Line :=
  match cands.dropWhile (fun l => decide (l.style.1 ≠ maxS)) with
  | [] => []
  | f :: rest =>
    f :: (match rest with
      | [] => []
      | b :: _ =>
        if (f.style.1 : ℚ) * (5/2) < |b.y0 - f.y0| then []
        else if (b.style.1 : ℚ) < (maxS : ℚ) * (7/10) then []
        else [b])

/-- Band texts of one page as the header/footer claim words them, with
length strictly between 5 and 99 characters. -/
def pageBandTextsClaim (p : Page) : List String :=
  p.blocks.filterMap (fun b =>
    if b.y0 < p.height * (20/100 : ℚ) ∨ p.height * (85/100 : ℚ) < b.y1 then
      let t := hfNormText b.text
      if decide (5 < t.length) && decide (t.length < 99) &&
          !(lastChar t == some '.')
        then some t else none
    else none)

/-- The ignore set as the header/footer claim words it: qualifying texts
occurring in at least 0.4 times the scanned page count of PAGES (each page
counted once no matter how many of its blocks carry the text). -/
def ignoreSetClaim (doc : Doc) : List String :=
  if doc.length < 4 then []
  else
    ((hfScanned doc).flatMap pageBandTextsClaim).dedup.filter (fun t =>
      decide (((hfEnd doc - hfStart doc : ℕ) : ℚ) * (4/10) ≤
        (((hfScanned doc).filter (fun p => t ∈ pageBandTextsClaim p)).length :
          ℚ)))

/-- The body style the body-style claim words: deduced from the style
frequencies of the retained NON-TITLE lines only. -/
def bodyStyleClaim (doc : Doc) : Style :=
  bodyStyle (styleCounts (linesAfterTitle doc))

/-! ## Resource-handle events of process_pdf.  The only handle operation on
any control path of the source is fitz.open at line 122; no path through
process_pdf (neither the return at line 317 nor a propagated exception)
closes the document handle.  This trace records the handle operations that
the source performs. -/

/-- Events on the document layout provider's handle. -/
inductive DocEvent where
  | openDoc : DocEvent
  | closeDoc : DocEvent
deriving DecidableEq, Repr

/-- Handle events performed by process_pdf, modelled from the source: one
open (line 122) and never a close, on every path. -/
def processPdfHandleEvents (_doc : Doc) : List DocEvent := [DocEvent.openDoc]

/-! ## Concrete documents used as witnesses and counterexamples -/

/-- A raw title line of 20pt regular text. -/
def exSrcL1 : SrcLine :=
  { x0 := 10, y0 := 10, x1 := 90, y1 := 15,
    spans := [{ text := "Big Title Line", font := "Regular", size := 20 }] }

/-- A second raw title line of 20pt regular text just below the first. -/
def exSrcL2 : SrcLine :=
  { x0 := 10, y0 := 16, x1 := 90, y1 := 20,
    spans := [{ text := "Second Title", font := "Regular", size := 20 }] }

/-- A small 10pt line further down the top half of page 0. -/
def exSrcL4 : SrcLine :=
  { x0 := 10, y0 := 30, x1 := 90, y1 := 34,
    spans := [{ text := "small line here", font := "Regular", size := 10 }] }

/-- A one-page document: two 20pt title lines and one 10pt line. -/
def exDoc1 : Doc :=
  [{ width := 100, height := 100, blocks := [],
     dictBlocks := [{ lines := some [exSrcL1, exSrcL2, exSrcL4] }],
     tables := [] }]

/-- The first title line as the extraction loop retains it. -/
def exL1 : Line :=
  { page := 0, text := "Big Title Line", style := (20, false),
    x0 := 10, y0 := 10, x1 := 90, y1 := 15, column := 0 }

/-- A distinct line sharing page and y0 with the first title line but with
different text and x-extent. -/
def exL1b : Line :=
  { page := 0, text := "Unrelated words", style := (12, false),
    x0 := 10, y0 := 10, x1 := 60, y1 := 15, column := 0 }

/-- The second title line as the extraction loop retains it. -/
def exL2 : Line :=
  { page := 0, text := "Second Title", style := (20, false),
    x0 := 10, y0 := 16, x1 := 90, y1 := 20, column := 0 }

/-- The small line as the extraction loop retains it. -/
def exL4 : Line :=
  { page := 0, text := "small line here", style := (10, false),
    x0 := 10, y0 := 30, x1 := 90, y1 := 34, column := 0 }

/-- A 99-character text (no trailing period). -/
def exT99 : String :=
  "xxxxxxxxxxxxxxxxxxxxxxxxxxxxxxxxxxxxxxxxxxxxxxxxxxxxxxxxxxxxxxxxxxxxxxxxxxxxxxxxxxxxxxxxxxxxxxxxxxx"

/-- A page whose top band carries the same 99-character text in two separate
blocks. -/
def exBandPage : Page :=
  { width := 100, height := 100,
    blocks :=
      [{ x0 := 10, y0 := 5, x1 := 90, y1 := 12, text := exT99 },
       { x0 := 10, y0 := 13, x1 := 90, y1 := 18, text := exT99 }],
    dictBlocks := [], tables := [] }

/-- An empty page. -/
def exEmptyPage : Page :=
  { width := 100, height := 100, blocks := [], dictBlocks := [],
    tables := [] }

/-- An eight-page document whose only band text is the doubled 99-character
text on page 2 (the scan covers pages 2 to 5). -/
def exDoc2 : Doc :=
  [exEmptyPage, exEmptyPage, exBandPage, exEmptyPage,
   exEmptyPage, exEmptyPage, exEmptyPage, exEmptyPage]

/-- A merged-run start for the merge-walk witness. -/
def exH1 : Heading :=
  { page := 1, column := 0, style := (14, true), y0 := 100, y1 := 114,
    text := "Chapter One", level := 1 }

/-- A second heading fragment right below the first. -/
def exH2 : Heading :=
  { page := 1, column := 0, style := (14, true), y0 := 115, y1 := 129,
    text := "Introduction", level := 1 }

/-- A candidate line of style (20, false) for the level-assignment
witness. -/
def exC1 : Line :=
  { page := 1, text := "First Part", style := (20, false),
    x0 := 10, y0 := 40, x1 := 90, y1 := 50, column := 0 }

/-- A candidate line of style (12, false) for the level-assignment
witness. -/
def exC2 : Line :=
  { page := 1, text := "A Section", style := (12, false),
    x0 := 10, y0 := 60, x1 := 90, y1 := 66, column := 0 }

/-! # Lemmas

## Counting and association-counter lemmas -/

@[simp]
theorem cnt_nil {α : Type} [DecidableEq α] (t : α) : cnt t [] = 0 := rfl

@[simp]
theorem cnt_cons {α : Type} [DecidableEq α] (t x : α) (r : List α) :
    cnt t (x :: r) = (if x = t then 1 else 0) + cnt t r := rfl

theorem cnt_pos_iff_mem {α : Type} [DecidableEq α] (t : α) (l : List α) :
    0 < cnt t l ↔ t ∈ l := by
  induction l with
  | nil => simp
  | cons x r ih =>
    by_cases h : x = t
    · subst h; simp
    · have h2 : ¬ t = x := fun hh => h hh.symm
      simp [h, h2, ih]

theorem alookup_bump_self {α : Type} [DecidableEq α] (k : α) (w : Nat)
    (acc : List (α × Nat)) :
    alookup k (bump k w acc) = some ((alookup k acc).getD 0 + w) := by
  induction acc with
  | nil => simp [bump, alookup]
  | cons p r ih =>
    by_cases h : p.1 = k
    · simp [bump, alookup, h]
    · simp [bump, alookup, h, ih]

theorem alookup_bump_ne {α : Type} [DecidableEq α] {j k : α} (hjk : j ≠ k)
    (w : Nat) (acc : List (α × Nat)) :
    alookup j (bump k w acc) = alookup j acc := by
  have hkj : ¬ k = j := fun hh => hjk hh.symm
  induction acc with
  | nil => simp [bump, alookup, hkj]
  | cons p r ih =>
    by_cases h : p.1 = k
    · have h2 : ¬ p.1 = j := by rw [h]; exact hkj
      simp [bump, alookup, h, h2, hkj]
    · by_cases h3 : p.1 = j
      · simp [bump, alookup, h, h3, hjk]
      · simp [bump, alookup, h, h3, ih]

theorem keys_bump_of_none {α : Type} [DecidableEq α] {k : α}
    {acc : List (α × Nat)} (h : alookup k acc = none) (w : Nat) :
    (bump k w acc).map Prod.fst = acc.map Prod.fst ++ [k] := by
  induction acc with
  | nil => simp [bump]
  | cons p r ih =>
    by_cases hp : p.1 = k
    · simp [alookup, hp] at h
    · simp only [alookup, hp, if_false] at h
      simp [bump, hp, ih h]

theorem keys_bump_of_some {α : Type} [DecidableEq α] {k : α} {c : Nat}
    {acc : List (α × Nat)} (h : alookup k acc = some c) (w : Nat) :
    (bump k w acc).map Prod.fst = acc.map Prod.fst := by
  induction acc with
  | nil => simp [alookup] at h
  | cons p r ih =>
    by_cases hp : p.1 = k
    · simp [bump, hp]
    · simp only [alookup, hp, if_false] at h
      simp [bump, hp, ih h]

theorem alookup_eq_none_iff {α : Type} [DecidableEq α] (t : α)
    (acc : List (α × Nat)) :
    alookup t acc = none ↔ t ∉ acc.map Prod.fst := by
  induction acc with
  | nil => simp [alookup]
  | cons p r ih =>
    by_cases hp : p.1 = t
    · simp [alookup, hp]
    · have h2 : ¬ t = p.1 := fun hh => hp hh.symm
      simp [alookup, hp, ih, h2]

theorem keysNodup_bump {α : Type} [DecidableEq α] (k : α) (w : Nat)
    {acc : List (α × Nat)} (h : keysNodup acc) : keysNodup (bump k w acc) := by
  unfold keysNodup at h ⊢
  cases hl : alookup k acc with
  | none =>
    rw [keys_bump_of_none hl w]
    have hk : k ∉ acc.map Prod.fst := (alookup_eq_none_iff k acc).mp hl
    simp [List.nodup_append, h, hk]
  | some c => rw [keys_bump_of_some hl w]; exact h

theorem alookup_mem {α : Type} [DecidableEq α] {t : α} {c : Nat}
    {acc : List (α × Nat)} (h : alookup t acc = some c) : (t, c) ∈ acc := by
  induction acc with
  | nil => simp [alookup] at h
  | cons p r ih =>
    by_cases hp : p.1 = t
    · simp only [alookup, hp, if_true] at h
      have : p = (t, c) := by
        cases p with
        | mk a b =>
          simp only at hp
          simp only [Option.some.injEq] at h
          simp [hp, h]
      simp [this]
    · simp only [alookup, hp, if_false] at h
      exact List.mem_cons_of_mem _ (ih h)

theorem mem_alookup {α : Type} [DecidableEq α] {t : α} {c : Nat}
    {acc : List (α × Nat)} (hn : keysNodup acc) (h : (t, c) ∈ acc) :
    alookup t acc = some c := by
  induction acc with
  | nil => simp at h
  | cons p r ih =>
    unfold keysNodup at hn
    simp only [List.map_cons, List.nodup_cons] at hn
    rcases List.mem_cons.mp h with h1 | h1
    · rw [← h1]; simp [alookup]
    · by_cases hp : p.1 = t
      · exfalso
        apply hn.1
        rw [hp]
        exact List.mem_map.mpr ⟨(t, c), h1, rfl⟩
      · simp only [alookup, hp, if_false]
        exact ih hn.2 h1

theorem alookup_foldl_bump {α : Type} [DecidableEq α] (l : List α) :
    ∀ (acc : List (α × Nat)) (t : α),
      alookup t (l.foldl (fun a s => bump s 1 a) acc) =
        (match alookup t acc with
         | some c => some (c + cnt t l)
         | none => if 0 < cnt t l then some (cnt t l) else none) := by
  induction l with
  | nil =>
    intro acc t
    cases h : alookup t acc <;> simp [h]
  | cons s r ih =>
    intro acc t
    rw [List.foldl_cons, ih]
    by_cases hst : s = t
    · subst hst
      rw [alookup_bump_self]
      cases h : alookup s acc with
      | none => simp [h]; try omega
      | some c => simp [h]; try omega
    · rw [alookup_bump_ne (fun h => hst h.symm)]
      cases h : alookup t acc <;> simp [h, hst]

theorem keysNodup_foldl_bump {α : Type} [DecidableEq α] (l : List α) :
    ∀ (acc : List (α × Nat)), keysNodup acc →
      keysNodup (l.foldl (fun a s => bump s 1 a) acc) := by
  induction l with
  | nil => intro acc h; exact h
  | cons s r ih =>
    intro acc h
    rw [List.foldl_cons]
    exact ih _ (keysNodup_bump s 1 h)

theorem keysNodup_tally {α : Type} [DecidableEq α] (l : List α) :
    keysNodup (tally l) :=
  keysNodup_foldl_bump l [] (by simp [keysNodup])

theorem alookup_tally {α : Type} [DecidableEq α] (l : List α) (t : α) :
    alookup t (tally l) =
      if 0 < cnt t l then some (cnt t l) else none := by
  unfold tally
  rw [alookup_foldl_bump]
  simp [alookup]

/-! ## firstMax lemmas (Counter.most_common(1)) -/

theorem firstMax_eq_none_iff {α : Type} (l : List (α × Nat)) :
    firstMax l = none ↔ l = [] := by
  cases l with
  | nil => simp [firstMax]
  | cons p r =>
    simp only [firstMax]
    cases firstMax r with
    | none => simp
    | some q =>
      by_cases h : p.2 < q.2 <;> simp [h]

theorem firstMax_mem {α : Type} {l : List (α × Nat)} {p : α × Nat}
    (h : firstMax l = some p) : p ∈ l := by
  induction l with
  | nil => simp [firstMax] at h
  | cons q r ih =>
    simp only [firstMax] at h
    cases hf : firstMax r with
    | none => rw [hf] at h; simp at h; simp [h]
    | some m =>
      rw [hf] at h
      by_cases h2 : q.2 < m.2
      · simp [h2] at h
        exact List.mem_cons_of_mem _ (ih (by rw [hf, h]))
      · simp [h2] at h
        simp [h]

theorem firstMax_le {α : Type} (l : List (α × Nat)) :
    ∀ {p : α × Nat}, firstMax l = some p → ∀ q ∈ l, q.2 ≤ p.2 := by
  induction l with
  | nil => intro p h; simp [firstMax] at h
  | cons q r ih =>
    intro p h x hx
    simp only [firstMax] at h
    cases hf : firstMax r with
    | none =>
      have hr : r = [] := (firstMax_eq_none_iff r).mp hf
      rw [hf] at h
      simp only [Option.some.injEq] at h
      subst hr
      rcases List.mem_cons.mp hx with h1 | h1
      · rw [h1, ← h]
      · simp at h1
    | some m =>
      rw [hf] at h
      have hrm : ∀ y ∈ r, y.2 ≤ m.2 := ih hf
      rcases List.mem_cons.mp hx with h1 | h1
      · subst h1
        by_cases h2 : x.2 < m.2
        · simp only [h2, if_true, Option.some.injEq] at h
          rw [← h]; omega
        · simp only [h2, if_false, Option.some.injEq] at h
          rw [← h]
      · have hym := hrm x h1
        by_cases h2 : q.2 < m.2
        · simp only [h2, if_true, Option.some.injEq] at h
          rw [← h]; exact hym
        · simp only [h2, if_false, Option.some.injEq] at h
          rw [← h]; omega

/-! ## Stable insertion-sort lemmas -/

theorem insertLe_perm {α : Type} (le : α → α → Bool) (a : α) (l : List α) :
    (insertLe le a l).Perm (a :: l) := by
  induction l with
  | nil => simp [insertLe]
  | cons b r ih =>
    by_cases h : le a b
    · simp [insertLe, h]
    · simp only [insertLe, h, if_false]
      exact (ih.cons b).trans (List.Perm.swap a b r)

theorem sortBy_perm {α : Type} (le : α → α → Bool) (l : List α) :
    (sortBy le l).Perm l := by
  induction l with
  | nil => simp [sortBy]
  | cons x r ih =>
    exact (insertLe_perm le x (sortBy le r)).trans (ih.cons x)

theorem mem_sortBy {α : Type} (le : α → α → Bool) (a : α) (l : List α) :
    a ∈ sortBy le l ↔ a ∈ l :=
  (sortBy_perm le l).mem_iff

theorem insertLe_pairwise {α : Type} {le : α → α → Bool}
    (htot : ∀ x y, le x y = true ∨ le y x = true)
    (htr : ∀ x y z, le x y = true → le y z = true → le x z = true)
    (a : α) {l : List α} (h : l.Pairwise (fun x y => le x y = true)) :
    (insertLe le a l).Pairwise (fun x y => le x y = true) := by
  induction l with
  | nil => simp [insertLe]
  | cons b r ih =>
    rcases List.pairwise_cons.mp h with ⟨hb, hr⟩
    by_cases hab : le a b
    · simp only [insertLe, hab, if_true]
      refine List.pairwise_cons.mpr ⟨?_, h⟩
      intro y hy
      rcases List.mem_cons.mp hy with h1 | h1
      · rw [h1]; exact hab
      · exact htr a b y hab (hb y h1)
    · have hba : le b a = true := by
        rcases htot a b with h1 | h1
        · exact absurd h1 hab
        · exact h1
      simp only [insertLe, hab, if_false]
      refine List.pairwise_cons.mpr ⟨?_, ih hr⟩
      intro y hy
      rcases List.mem_cons.mp ((insertLe_perm le a r).mem_iff.mp hy) with h1 | h1
      · rw [h1]; exact hba
      · exact hb y h1

theorem sortBy_pairwise {α : Type} {le : α → α → Bool}
    (htot : ∀ x y, le x y = true ∨ le y x = true)
    (htr : ∀ x y z, le x y = true → le y z = true → le x z = true)
    (l : List α) :
    (sortBy le l).Pairwise (fun x y => le x y = true) := by
  induction l with
  | nil => simp [sortBy]
  | cons x r ih => exact insertLe_pairwise htot htr x ih

/-! ## firstIdx lemmas -/

theorem firstIdx_some {α : Type} [DecidableEq α] {s : α} {l : List α} :
    ∀ {i : Nat}, firstIdx s l = some i →
      ∃ h : i < l.length, l.get ⟨i, h⟩ = s := by
  induction l with
  | nil => intro i h; simp [firstIdx] at h
  | cons t r ih =>
    intro i h
    by_cases ht : t = s
    · simp only [firstIdx, ht, if_true, Option.some.injEq] at h
      subst h
      exact ⟨by simp, ht⟩
    · simp only [firstIdx, ht, if_false] at h
      cases hf : firstIdx s r with
      | none => rw [hf] at h; simp at h
      | some j =>
        rw [hf] at h
        simp at h
        rcases ih hf with ⟨hj, hg⟩
        subst h
        exact ⟨by simpa using Nat.succ_lt_succ hj, by simpa using hg⟩

theorem firstIdx_isSome_of_mem {α : Type} [DecidableEq α] {s : α}
    {l : List α} (h : s ∈ l) : (firstIdx s l).isSome := by
  induction l with
  | nil => simp at h
  | cons t r ih =>
    by_cases ht : t = s
    · simp [firstIdx, ht]
    · rcases List.mem_cons.mp h with h1 | h1
      · exact absurd h1.symm ht
      · have := ih h1
        simp only [firstIdx, ht, if_false]
        cases hf : firstIdx s r with
        | none => rw [hf] at this; simp at this
        | some j => simp

theorem firstIdx_get_nodup {α : Type} [DecidableEq α] {l : List α}
    (hn : l.Nodup) : ∀ (i : Nat) (hi : i < l.length),
      firstIdx (l.get ⟨i, hi⟩) l = some i := by
  induction l with
  | nil => intro i hi; simp at hi
  | cons t r ih =>
    intro i hi
    rcases List.nodup_cons.mp hn with ⟨hm, hr⟩
    cases i with
    | zero => simp [firstIdx]
    | succ j =>
      have hj : j < r.length := by simpa using Nat.lt_of_succ_lt_succ hi
      have hget : (t :: r).get ⟨j + 1, hi⟩ = r.get ⟨j, hj⟩ := rfl
      rw [hget]
      have htne : ¬ t = r.get ⟨j, hj⟩ := by
        intro hh
        exact hm (hh ▸ List.get_mem r j hj)
      simp only [firstIdx, htne, if_false, ih hr j hj]
      rfl

theorem firstIdx_take {α : Type} [DecidableEq α] {s : α} {l : List α}
    {n i : Nat} (h : firstIdx s (l.take n) = some i) :
    firstIdx s l = some i := by
  induction l generalizing n i with
  | nil => simpa using h
  | cons t r ih =>
    cases n with
    | zero => simp [firstIdx] at h
    | succ m =>
      simp only [List.take_succ_cons] at h
      by_cases ht : t = s
      · simp only [firstIdx, ht, if_true] at h ⊢; exact h
      · simp only [firstIdx, ht, if_false] at h ⊢
        cases hf : firstIdx s (r.take m) with
        | none => rw [hf] at h; simp at h
        | some j =>
          rw [hf] at h
          rw [ih hf]
          exact h

theorem firstIdx_take_of_lt {α : Type} [DecidableEq α] {s : α} {l : List α}
    {n i : Nat} (h : firstIdx s l = some i) (hin : i < n) :
    firstIdx s (l.take n) = some i := by
  induction l generalizing n i with
  | nil => simp [firstIdx] at h
  | cons t r ih =>
    cases n with
    | zero => simp at hin
    | succ m =>
      simp only [List.take_succ_cons]
      by_cases ht : t = s
      · simp only [firstIdx, ht, if_true] at h ⊢; exact h
      · simp only [firstIdx, ht, if_false] at h ⊢
        cases hf : firstIdx s r with
        | none => rw [hf] at h; simp at h
        | some j =>
          rw [hf] at h
          simp at h
          subst h
          rw [ih hf (by omega)]
          rfl

/-! ## dropWhile head lemma -/

theorem dropWhile_head_not {α : Type} {p : α → Bool} {l : List α} {x : α}
    {xs : List α} (h : l.dropWhile p = x :: xs) : p x = false := by
  induction l with
  | nil => simp at h
  | cons t r ih =>
    by_cases ht : p t
    · rw [List.dropWhile_cons_of_pos ht] at h
      exact ih h
    · rw [List.dropWhile_cons_of_neg ht] at h
      cases h
      simpa using ht

/-! ## Merge-walk lemmas -/

theorem mergeCond_iff (cur n : Heading) :
    mergeCond cur n = true ↔
      n.page = cur.page ∧ n.column = cur.column ∧ n.style = cur.style ∧
        |n.y0 - cur.y1| < (cur.style.1 : ℚ) * (1/2) := by
  simp [mergeCond, and_assoc]

@[simp]
theorem absorb_page (cur n : Heading) : (absorb cur n).page = cur.page := rfl

@[simp]
theorem absorb_column (cur n : Heading) :
    (absorb cur n).column = cur.column := rfl

@[simp]
theorem absorb_style (cur n : Heading) :
    (absorb cur n).style = cur.style := rfl

@[simp]
theorem absorb_level (cur n : Heading) :
    (absorb cur n).level = cur.level := rfl

@[simp]
theorem absorb_y1 (cur n : Heading) : (absorb cur n).y1 = n.y1 := rfl

theorem foldl_absorb_page (run : List Heading) :
    ∀ c : Heading, (run.foldl absorb c).page = c.page := by
  induction run with
  | nil => intro c; rfl
  | cons n r ih => intro c; rw [List.foldl_cons, ih]; rfl

theorem foldl_absorb_level (run : List Heading) :
    ∀ c : Heading, (run.foldl absorb c).level = c.level := by
  induction run with
  | nil => intro c; rfl
  | cons n r ih => intro c; rw [List.foldl_cons, ih]; rfl

theorem foldl_absorb_text (run : List Heading) :
    ∀ c : Heading,
      (run.foldl absorb c).text = joinSpace ((c :: run).map Heading.text) := by
  induction run with
  | nil => intro c; rfl
  | cons n r ih =>
    intro c
    rw [List.foldl_cons, ih]
    simp only [List.map_cons, joinSpace, absorb, List.foldl_cons]

theorem entryOfRun_eq (c : Heading) (run : List Heading) :
    entryOfRun c run =
      { level := levelName c.level,
        text := pyStrip (joinSpace ((c :: run).map Heading.text)),
        page := c.page } := by
  unfold entryOfRun entryOf
  rw [foldl_absorb_page, foldl_absorb_level, foldl_absorb_text]

theorem grabRun_append (cur : Heading) (l : List Heading) :
    l = (grabRun cur l).1 ++ (grabRun cur l).2 := by
  induction l generalizing cur with
  | nil => simp [grabRun]
  | cons n rest ih =>
    by_cases h : mergeCond cur n
    · simp only [grabRun, h, if_true, List.cons_append]
      exact congrArg (n :: ·) (ih (absorb cur n))
    · simp [grabRun, h]

theorem grabRun_len (cur : Heading) (l : List Heading) :
    (grabRun cur l).2.length ≤ l.length := by
  have h := congrArg List.length (grabRun_append cur l)
  rw [List.length_append] at h
  omega

theorem grabRun_fields (l : List Heading) :
    ∀ cur : Heading, ∀ x ∈ (grabRun cur l).1,
      x.page = cur.page ∧ x.column = cur.column ∧ x.style = cur.style := by
  induction l with
  | nil => intro cur x hx; simp [grabRun] at hx
  | cons n rest ih =>
    intro cur x hx
    by_cases hm : mergeCond cur n
    · simp only [grabRun, hm, if_true] at hx
      rcases List.mem_cons.mp hx with h1 | h1
      · subst h1
        rcases (mergeCond_iff cur x).mp hm with ⟨h1, h2, h3, _⟩
        exact ⟨h1, h2, h3⟩
      · have := ih (absorb cur n) x h1
        simpa using this
    · simp [grabRun, hm] at hx

theorem grabRun_stop (l : List Heading) :
    ∀ (cur : Heading) {n : Heading} {rest2 : List Heading},
      (grabRun cur l).2 = n :: rest2 →
      mergeCond ((grabRun cur l).1.foldl absorb cur) n = false := by
  induction l with
  | nil => intro cur n rest2 h; simp [grabRun] at h
  | cons m r ih =>
    intro cur n rest2 h
    by_cases hm : mergeCond cur m
    · simp only [grabRun, hm, if_true] at h ⊢
      rw [List.foldl_cons]
      exact ih (absorb cur m) h
    · simp only [grabRun, hm, if_false] at h ⊢
      injection h with h1 h2
      subst h1
      simpa using hm

theorem walk_eq (l : List Heading) :
    ∀ cur : Heading,
      walk cur l =
        entryOf ((grabRun cur l).1.foldl absorb cur) ::
          buildOutline (grabRun cur l).2 := by
  induction l with
  | nil => intro cur; simp [walk, grabRun, buildOutline]
  | cons n rest ih =>
    intro cur
    by_cases hm : mergeCond cur n
    · simp only [walk, grabRun, hm, if_true]
      rw [ih (absorb cur n), List.foldl_cons]
    · simp only [walk, grabRun, hm, if_false]
      simp [buildOutline]

theorem runsFuel_nil (f : Nat) : runsFuel f [] = [] := by
  cases f <;> rfl

theorem runsFuel_congr (f : Nat) :
    ∀ (g : Nat) (hs : List Heading), hs.length ≤ f → hs.length ≤ g →
      runsFuel f hs = runsFuel g hs := by
  induction f with
  | zero =>
    intro g hs hf _
    have : hs = [] := List.length_eq_zero.mp (Nat.le_zero.mp hf)
    subst this
    rw [runsFuel_nil, runsFuel_nil]
  | succ f2 ih =>
    intro g hs hf hg
    cases hs with
    | nil => rw [runsFuel_nil, runsFuel_nil]
    | cons c rest =>
      cases g with
      | zero => simp at hg
      | succ g2 =>
        simp only [runsFuel]
        congr 1
        have hl := grabRun_len c rest
        simp only [List.length_cons] at hf hg
        exact ih g2 _ (by omega) (by omega)

theorem runs_cons (c : Heading) (rest : List Heading) :
    runs (c :: rest) =
      (c, (grabRun c rest).1) :: runs ((grabRun c rest).2) := by
  unfold runs
  simp only [List.length_cons, runsFuel]
  congr 1
  exact runsFuel_congr rest.length _ _ (grabRun_len c rest) (le_refl _)

theorem buildOutline_eq_runs (hs : List Heading) :
    buildOutline hs = (runs hs).map (fun pr => entryOfRun pr.1 pr.2) := by
  have main : ∀ (n : Nat) (l : List Heading), l.length ≤ n →
      buildOutline l = (runs l).map (fun pr => entryOfRun pr.1 pr.2) := by
    intro n
    induction n with
    | zero =>
      intro l hl
      have : l = [] := List.length_eq_zero.mp (Nat.le_zero.mp hl)
      subst this
      simp [buildOutline, runs, runsFuel]
    | succ n2 ih =>
      intro l hl
      cases l with
      | nil => simp [buildOutline, runs, runsFuel]
      | cons c rest =>
        rw [runs_cons]
        simp only [buildOutline, List.map_cons]
        rw [walk_eq]
        congr 1
        have := grabRun_len c rest
        simp only [List.length_cons] at hl
        exact ih _ (by omega)
  exact main hs.length hs (le_refl _)

theorem pairAdjacent_mergeCond {a b cur : Heading} (hp : pairAdjacent a b)
    (h1 : a.page = cur.page) (h2 : a.column = cur.column)
    (h3 : a.style = cur.style) (h4 : cur.y1 = a.y1) :
    mergeCond cur b = true := by
  rcases hp with ⟨hb1, hb2, hb3, hb4⟩
  rw [mergeCond_iff]
  refine ⟨hb1.trans h1, hb2.trans h2, hb3.trans h3, ?_⟩
  rw [h4, ← h3]
  exact hb4

theorem grabRun_locate (l : List Heading) :
    ∀ (cur : Heading) (pre post : List Heading) (a b : Heading),
      l = pre ++ a :: b :: post → pairAdjacent a b →
      (a ∈ (grabRun cur l).1 ∧ b ∈ (grabRun cur l).1) ∨
        (∃ pre2, (grabRun cur l).2 = pre2 ++ a :: b :: post) := by
  induction l with
  | nil =>
    intro cur pre post a b hdec _
    exact absurd hdec.symm (by simp)
  | cons n rest ih =>
    intro cur pre post a b hdec hadj
    by_cases hm : mergeCond cur n
    · cases pre with
      | nil =>
        simp only [List.nil_append] at hdec
        injection hdec with hna hrest
        rcases (mergeCond_iff cur n).mp hm with ⟨hf1, hf2, hf3, _⟩
        have hmb : mergeCond (absorb cur n) b = true := by
          apply pairAdjacent_mergeCond hadj
          · rw [← hna]; simpa using hf1
          · rw [← hna]; simpa using hf2
          · rw [← hna]; simpa using hf3
          · rw [absorb_y1, hna]
        left
        simp only [grabRun, hm, if_true]
        constructor
        · rw [← hna]; exact List.mem_cons_self _ _
        · apply List.mem_cons_of_mem
          rw [hrest]
          simp only [grabRun, hmb, if_true]
          exact List.mem_cons_self _ _
      | cons d pre2 =>
        simp only [List.cons_append] at hdec
        injection hdec with hnd hrest
        rcases ih (absorb cur n) pre2 post a b hrest hadj with h | ⟨pre3, h3⟩
        · left
          simp only [grabRun, hm, if_true]
          exact ⟨List.mem_cons_of_mem _ h.1, List.mem_cons_of_mem _ h.2⟩
        · right
          refine ⟨pre3, ?_⟩
          simp only [grabRun, hm, if_true]
          exact h3
    · right
      refine ⟨pre, ?_⟩
      simp only [grabRun, hm, if_false]
      exact hdec

theorem runs_locate (hs : List Heading) (pre post : List Heading)
    (a b : Heading) (hdec : hs = pre ++ a :: b :: post)
    (hadj : pairAdjacent a b) :
    ∃ pr ∈ runs hs, a ∈ pr.1 :: pr.2 ∧ b ∈ pr.1 :: pr.2 := by
  have main : ∀ (n : Nat) (l : List Heading) (pre post : List Heading)
      (a b : Heading), l.length ≤ n → l = pre ++ a :: b :: post →
      pairAdjacent a b →
      ∃ pr ∈ runs l, a ∈ pr.1 :: pr.2 ∧ b ∈ pr.1 :: pr.2 := by
    intro n
    induction n with
    | zero =>
      intro l pre post a b hl hdec _
      subst hdec
      simp at hl
    | succ n2 ih =>
      intro l pre post a b hl hdec hadj
      cases l with
      | nil => exact absurd hdec.symm (by simp)
      | cons c rest =>
        rw [runs_cons]
        cases pre with
        | nil =>
          simp only [List.nil_append] at hdec
          injection hdec with hca hrest
          have hmb : mergeCond c b = true := by
            apply pairAdjacent_mergeCond hadj
            · rw [hca]
            · rw [hca]
            · rw [hca]
            · rw [hca]
          refine ⟨(c, (grabRun c rest).1), List.mem_cons_self _ _, ?_, ?_⟩
          · rw [hca]; exact List.mem_cons_self _ _
          · apply List.mem_cons_of_mem
            rw [hrest]
            simp only [grabRun, hmb, if_true]
            exact List.mem_cons_self _ _
        | cons d pre2 =>
          simp only [List.cons_append] at hdec
          injection hdec with hcd hrest
          rcases grabRun_locate rest c pre2 post a b hrest hadj
            with h | ⟨pre3, h3⟩
          · exact ⟨(c, (grabRun c rest).1), List.mem_cons_self _ _,
              List.mem_cons_of_mem _ h.1, List.mem_cons_of_mem _ h.2⟩
          · have hlen : (grabRun c rest).2.length ≤ n2 := by
              have := grabRun_len c rest
              simp only [List.length_cons] at hl
              omega
            rcases ih _ pre3 post a b hlen h3 hadj with ⟨pr, hpr, hm1, hm2⟩
            exact ⟨pr, List.mem_cons_of_mem _ hpr, hm1, hm2⟩
  exact main hs.length hs pre post a b (le_refl _) hdec hadj

/-! # Claim theorems -/

/-- C4: whenever two adjacent entries of the sorted heading list share page,
column and style and the later line's y0 is within half the size of the
earlier entry's bottom edge y1, the merge walk puts both into one and the
same run, and the outline contains that run's single entry, whose text is
the space-joined concatenation of the run's fragment texts in sort order and
whose page and level come from the run's first fragment. -/
theorem c4_adjacent_fragments_merge (hs : List Heading)
    (pre post : List Heading) (a b : Heading)
    (hdec : hs = pre ++ a :: b :: post) (hadj : pairAdjacent a b) :
    ∃ pr ∈ runs hs, a ∈ pr.1 :: pr.2 ∧ b ∈ pr.1 :: pr.2 ∧
      entryOfRun pr.1 pr.2 ∈ buildOutline hs ∧
      entryOfRun pr.1 pr.2 =
        { level := levelName pr.1.level,
          text := pyStrip (joinSpace ((pr.1 :: pr.2).map Heading.text)),
          page := pr.1.page } := by
  rcases runs_locate hs pre post a b hdec hadj with ⟨pr, hpr, h1, h2⟩
  refine ⟨pr, hpr, h1, h2, ?_, entryOfRun_eq pr.1 pr.2⟩
  rw [buildOutline_eq_runs]
  exact List.mem_map.mpr ⟨pr, hpr, rfl⟩

/-- Witness for C4 at a concrete two-fragment heading list. -/
theorem c4_witness :
    pairAdjacent exH1 exH2 ∧
      (∃ pr ∈ runs [exH1, exH2], exH1 ∈ pr.1 :: pr.2 ∧ exH2 ∈ pr.1 :: pr.2 ∧
        entryOfRun pr.1 pr.2 ∈ buildOutline [exH1, exH2] ∧
        entryOfRun pr.1 pr.2 =
          { level := levelName pr.1.level,
            text := pyStrip (joinSpace ((pr.1 :: pr.2).map Heading.text)),
            page := pr.1.page }) :=
  ⟨by decide,
    c4_adjacent_fragments_merge [exH1, exH2] [] [] exH1 exH2 rfl (by decide)⟩

/-- C7: the pipeline is a pure function of the document structure, so two
runs over the same pages, blocks, lines, spans and table areas produce the
same title and the same outline, element for element. -/
theorem c7_determinism (d : Doc) (r1 r2 : Result)
    (h1 : r1 = process_pdf d) (h2 : r2 = process_pdf d) :
    r1.title = r2.title ∧ r1.outline = r2.outline := by
  subst h1
  subst h2
  exact ⟨rfl, rfl⟩

/-- Witness for C7 at a concrete document. -/
theorem c7_witness :
    (process_pdf exDoc1).title = (process_pdf exDoc1).title ∧
      (process_pdf exDoc1).outline = (process_pdf exDoc1).outline :=
  c7_determinism exDoc1 (process_pdf exDoc1) (process_pdf exDoc1) rfl rfl

/-- C8 (code bug): no control path of process_pdf ever emits a close event
for the document handle opened at source line 122; the trace of handle
operations contains the open and no close, for every document. -/
theorem c8_handle_never_closed (d : Doc) :
    DocEvent.closeDoc ∉ processPdfHandleEvents d := by
  simp [processPdfHandleEvents]

/-- C9: the predominantly-uppercase test is total and returns false on any
string with no alphabetic character (the source returns early before
dividing by the letter count), so the page-0 paragraph gate's
not-mostly-uppercase conjunct never rejects a letterless line. -/
theorem c9_mostly_uppercase_total (s : String)
    (h : ∀ c ∈ s.toList, c.isAlpha = false) :
    is_mostly_uppercase s = false := by
  unfold is_mostly_uppercase
  have hf : s.toList.filter Char.isAlpha = [] := by
    apply List.filter_eq_nil_iff.mpr
    intro a ha
    simp [h a ha]
  simp only [hf]
  rfl

/-- Witness for C9 at a concrete letterless string. -/
theorem c9_witness :
    (∀ c ∈ ("123 456!" : String).toList, c.isAlpha = false) ∧
      is_mostly_uppercase "123 456!" = false :=
  ⟨by decide, c9_mostly_uppercase_total "123 456!" (by decide)⟩

/-- C10: title-line removal is keyed on the identity (page, y0) only: any
line sharing page and y0 with a consumed line is removed from the corpus
before heading analysis, whatever its text or x-extent. -/
theorem c10_removal_keyed_on_identity (lines : List Line) (ids : List LineId)
    (l m : Line) (hp : m.page = l.page) (hy : m.y0 = l.y0)
    (hin : lineId l ∈ ids) : m ∉ removeTitleLines lines ids := by
  intro hmem
  cases ids with
  | nil => simp at hin
  | cons x r =>
    have hmem2 : m ∈ lines ∧ ¬ lineId m = x ∧ lineId m ∉ r := by
      simpa [removeTitleLines] using hmem
    have hid : lineId m = lineId l := by
      unfold lineId
      rw [hp, hy]
    rcases List.mem_cons.mp hin with h1 | h1
    · exact hmem2.2.1 (hid.trans h1)
    · apply hmem2.2.2
      rw [hid]
      exact h1

/-! ## Style-order lemmas for level assignment -/

theorem styleLe_total (a b : Style) :
    styleLe a b = true ∨ styleLe b a = true := by
  unfold styleLe
  rcases lt_trichotomy a.1 b.1 with h | h | h
  · right; simp [h]
  · simp [h]
    cases ha : a.2 <;> cases hb : b.2 <;> simp
  · left; simp [h]

theorem styleLe_trans (a b c : Style) (hab : styleLe a b = true)
    (hbc : styleLe b c = true) : styleLe a c = true := by
  unfold styleLe at *
  simp only [Bool.or_eq_true, Bool.and_eq_true, decide_eq_true_iff] at *
  rcases hab with h1 | ⟨h1, h2⟩ <;> rcases hbc with h3 | ⟨h3, h4⟩
  · left; omega
  · left; omega
  · left; omega
  · right
    refine ⟨by omega, ?_⟩
    cases ha : a.2 <;> cases hb : b.2 <;> cases hc : c.2 <;> simp_all

theorem rankAbove_irrefl (A : Style) : ¬ rankAbove A A := by
  unfold rankAbove
  intro h
  rcases h with h | ⟨_, h2, h3⟩
  · omega
  · rw [h2] at h3; cases h3

theorem rankAbove_not_le {A B : Style} (h : rankAbove A B) :
    ¬ styleLe B A = true := by
  unfold rankAbove at h
  unfold styleLe
  intro hle
  simp only [Bool.or_eq_true, Bool.and_eq_true, decide_eq_true_iff] at hle
  rcases h with h1 | ⟨h1, h2, h3⟩ <;> rcases hle with h4 | ⟨h4, h5⟩
  · omega
  · omega
  · omega
  · simp_all

theorem headingStyles_sorted (cands : List Line) :
    (headingStyles cands).Pairwise (fun x y => styleLe x y = true) :=
  sortBy_pairwise styleLe_total styleLe_trans _

theorem headingStyles_nodup (cands : List Line) :
    (headingStyles cands).Nodup :=
  ((sortBy_perm styleLe _).nodup_iff).mpr
    (List.nodup_dedup (cands.map Line.style))

theorem firstIdx_rank_lt {hs : List Style}
    (hsort : hs.Pairwise (fun x y => styleLe x y = true)) {A B : Style}
    {i j : Nat} (hA : firstIdx A hs = some i) (hB : firstIdx B hs = some j)
    (hr : rankAbove A B) : i < j := by
  rcases firstIdx_some hA with ⟨hi, hgi⟩
  rcases firstIdx_some hB with ⟨hj, hgj⟩
  by_contra hle
  rcases Nat.eq_or_lt_of_le (Nat.le_of_not_lt hle) with heq | hlt
  · have hAB : A = B := by
      rw [← hgi, ← hgj]
      congr 1
      exact Fin.ext heq.symm
    rw [hAB] at hr
    exact rankAbove_irrefl B hr
  · have hp := (List.pairwise_iff_get.mp hsort) ⟨j, hj⟩ ⟨i, hi⟩
      (by simpa using hlt)
    rw [hgi, hgj] at hp
    exact rankAbove_not_le hr hp

theorem styleLevel_firstIdx {hs : List Style} {s : Style} {n : Nat}
    (h : styleLevel hs s = some n) :
    ∃ i, firstIdx s hs = some i ∧ n = i + 1 := by
  unfold styleLevel at h
  cases hf : firstIdx s (hs.take 3) with
  | none => rw [hf] at h; simp at h
  | some i =>
    rw [hf] at h
    simp only [Option.some.injEq] at h
    exact ⟨i, firstIdx_take hf, h.symm⟩

theorem mem_refineHeadings {cands : List Line} {hstyles : List Style}
    {p0 : Bool} {h : Heading} (hm : h ∈ refineHeadings cands hstyles p0) :
    ∃ c ∈ cands, styleLevel hstyles c.style = some h.level ∧
      h = mkHeading c h.level := by
  have hm2 : ∃ c ∈ cands, ∃ n, styleLevel hstyles c.style = some n ∧
      mkHeading c n = h := by
    unfold refineHeadings at hm
    cases p0 with
    | true => simpa using hm
    | false =>
      have h2 : (∃ c ∈ cands, ∃ n, styleLevel hstyles c.style = some n ∧
          mkHeading c n = h) ∧ ¬ h.page = 0 := by simpa using hm
      exact h2.1
  rcases hm2 with ⟨c, hc, n, hn, heq⟩
  have hl : h.level = n := by rw [← heq]; rfl
  refine ⟨c, hc, ?_, ?_⟩
  · rw [hl]; exact hn
  · rw [hl]; exact heq.symm

/-- C3: level assignment respects the descending (size, boldness) order
of styles.  Conjunct 1: among surviving headings, a strictly higher-ranked
style never carries a numerically greater level.  Conjunct 2: the first
three distinct sorted candidate styles receive levels 1, 2, 3 (printed H1,
H2, H3).  Conjunct 3: every surviving heading's level is exactly the level
its style received, so any candidate whose style ranks beyond the third
distinct style (level none) is dropped. -/
theorem c3_level_monotone (cands : List Line) (p0 : Bool) :
    (∀ h1 ∈ refineHeadings cands (headingStyles cands) p0,
      ∀ h2 ∈ refineHeadings cands (headingStyles cands) p0,
        rankAbove h1.style h2.style → h1.level ≤ h2.level) ∧
    (∀ (i : Nat) (hi : i < (headingStyles cands).length), i < 3 →
      styleLevel (headingStyles cands) ((headingStyles cands).get ⟨i, hi⟩) =
        some (i + 1)) ∧
    (∀ h ∈ refineHeadings cands (headingStyles cands) p0,
      styleLevel (headingStyles cands) h.style = some h.level) := by
  have conj3 : ∀ h ∈ refineHeadings cands (headingStyles cands) p0,
      styleLevel (headingStyles cands) h.style = some h.level := by
    intro h hm
    rcases mem_refineHeadings hm with ⟨c, _, hlev, heq⟩
    have : h.style = c.style := by rw [heq]; rfl
    rw [this]
    exact hlev
  refine ⟨?_, ?_, conj3⟩
  · intro h1 hm1 h2 hm2 hr
    rcases styleLevel_firstIdx (conj3 h1 hm1) with ⟨i, hfi, hni⟩
    rcases styleLevel_firstIdx (conj3 h2 hm2) with ⟨j, hfj, hnj⟩
    have := firstIdx_rank_lt (headingStyles_sorted cands) hfi hfj hr
    omega
  · intro i hi hi3
    have h1 : firstIdx ((headingStyles cands).get ⟨i, hi⟩)
        (headingStyles cands) = some i :=
      firstIdx_get_nodup (headingStyles_nodup cands) i hi
    have h2 := firstIdx_take_of_lt h1 hi3
    unfold styleLevel
    rw [h2]

/-- Witness for C3 at two concrete candidate styles. -/
theorem c3_witness :
    (mkHeading exC1 1) ∈
        refineHeadings [exC1, exC2] (headingStyles [exC1, exC2]) true ∧
      (mkHeading exC2 2) ∈
        refineHeadings [exC1, exC2] (headingStyles [exC1, exC2]) true ∧
      rankAbove (mkHeading exC1 1).style (mkHeading exC2 2).style ∧
      (mkHeading exC1 1).level ≤ (mkHeading exC2 2).level :=
  ⟨by decide, by decide, by decide,
    (c3_level_monotone [exC1, exC2] true).1 (mkHeading exC1 1) (by decide)
      (mkHeading exC2 2) (by decide) (by decide)⟩

/-! ## Title-strategy lemmas -/

theorem dropWhile_ne_nil_of_exists {α : Type} {p : α → Bool} {l : List α}
    (h : ∃ x ∈ l, p x = false) : l.dropWhile p ≠ [] := by
  induction l with
  | nil => rcases h with ⟨x, hx, _⟩; simp at hx
  | cons t r ih =>
    rcases h with ⟨x, hx, hpx⟩
    by_cases ht : p t
    · rw [List.dropWhile_cons_of_pos ht]
      apply ih
      rcases List.mem_cons.mp hx with h1 | h1
      · subst h1; rw [ht] at hpx; cases hpx
      · exact ⟨x, h1, hpx⟩
    · rw [List.dropWhile_cons_of_neg ht]
      simp

theorem lineMax_spec (rest : List Line) :
    ∀ a : ℤ,
      (rest.foldl (fun m l => max m l.style.1) a = a ∨
        ∃ l ∈ rest, rest.foldl (fun m l => max m l.style.1) a = l.style.1) ∧
      a ≤ rest.foldl (fun m l => max m l.style.1) a ∧
      ∀ l ∈ rest, l.style.1 ≤ rest.foldl (fun m l => max m l.style.1) a := by
  induction rest with
  | nil => intro a; simp
  | cons n r ih =>
    intro a
    rw [List.foldl_cons]
    rcases ih (max a n.style.1) with ⟨h1, h2, h3⟩
    refine ⟨?_, ?_, ?_⟩
    · rcases h1 with h | ⟨l, hl, he⟩
      · rcases max_choice a n.style.1 with hm | hm
        · left; rw [h, hm]
        · right; exact ⟨n, List.mem_cons_self _ _, by rw [h, hm]⟩
      · right; exact ⟨l, List.mem_cons_of_mem _ hl, he⟩
    · exact le_trans (le_max_left _ _) h2
    · intro l hl
      rcases List.mem_cons.mp hl with h | h
      · subst h; exact le_trans (le_max_right _ _) h2
      · exact h3 l h

theorem lineMaxSize_attained (c : Line) (rest : List Line) :
    ∃ l ∈ c :: rest, l.style.1 = lineMaxSize c rest := by
  unfold lineMaxSize
  rcases (lineMax_spec rest c.style.1).1 with h | ⟨l, hl, he⟩
  · exact ⟨c, List.mem_cons_self _ _, h.symm⟩
  · exact ⟨l, List.mem_cons_of_mem _ hl, he.symm⟩

theorem titleFromSpread_eq_spec (cands : List Line) (maxS : ℤ) :
    titleFromSpread cands maxS = titleSpecLines cands maxS := by
  unfold titleFromSpread titleSpecLines
  cases hd : cands.dropWhile (fun l => decide (l.style.1 ≠ maxS)) with
  | nil => rfl
  | cons f rest =>
    have hf : f.style.1 = maxS := by
      have h2 := dropWhile_head_not hd
      simpa using h2
    cases rest with
    | nil => rfl
    | cons b r =>
      simp only [titleLoop]
      rw [if_neg (by omega : ¬ (2 ≤ 1))]
      by_cases h1 : (f.style.1 : ℚ) * (5/2) < |b.y0 - f.y0|
      · rw [if_pos h1, if_pos h1]
      · rw [if_neg h1, if_neg h1, hf]
        by_cases h2 : (b.style.1 : ℚ) < (maxS : ℚ) * (7/10)
        · rw [if_pos h2, if_pos h2]
        · rw [if_neg h2, if_neg h2]
          have h3 : titleLoop maxS b 2 r = [] := by
            cases r with
            | nil => rfl
            | cons x xs => simp [titleLoop]
          rw [h3]

theorem titleSpecLines_len (cands : List Line) (maxS : ℤ) :
    (titleSpecLines cands maxS).length ≤ 2 := by
  unfold titleSpecLines
  cases hd : cands.dropWhile (fun l => decide (l.style.1 ≠ maxS)) with
  | nil => simp
  | cons f rest =>
    cases rest with
    | nil => simp
    | cons b r =>
      by_cases h1 : (f.style.1 : ℚ) * (5/2) < |b.y0 - f.y0|
      · simp [h1]
      · by_cases h2 : (b.style.1 : ℚ) < (maxS : ℚ) * (7/10)
        · simp [h1, h2]
        · simp [h1, h2]

theorem titleSpecLines_head (cands : List Line) (maxS : ℤ) :
    ∀ f, (titleSpecLines cands maxS).head? = some f → f.style.1 = maxS := by
  unfold titleSpecLines
  intro f
  cases hd : cands.dropWhile (fun l => decide (l.style.1 ≠ maxS)) with
  | nil => intro h; simp at h
  | cons g rest =>
    intro h
    have hg : g.style.1 = maxS := by simpa using dropWhile_head_not hd
    rw [List.head?_cons] at h
    injection h with h2
    rw [← h2]
    exact hg

theorem titleSpecLines_ne_nil (c : Line) (rest : List Line) :
    titleSpecLines (c :: rest) (lineMaxSize c rest) ≠ [] := by
  have hne : (c :: rest).dropWhile
      (fun l => decide (l.style.1 ≠ lineMaxSize c rest)) ≠ [] := by
    apply dropWhile_ne_nil_of_exists
    rcases lineMaxSize_attained c rest with ⟨l, hl, he⟩
    exact ⟨l, hl, by simp [he]⟩
  unfold titleSpecLines
  cases hd : (c :: rest).dropWhile
      (fun l => decide (l.style.1 ≠ lineMaxSize c rest)) with
  | nil => exact absurd hd hne
  | cons f r2 => simp

theorem titleResolve_spread (doc : Doc) (lines : List Line) (c : Line)
    (rest : List Line) (hc : titleCandidates doc lines = c :: rest)
    (hnot : ¬ (lineMaxSize c rest - lineMinSize c rest < 1)) :
    titleResolve doc lines =
      (joinSpace ((titleFromSpread (c :: rest) (lineMaxSize c rest)).map
          Line.text),
        (titleFromSpread (c :: rest) (lineMaxSize c rest)).map lineId) := by
  unfold titleResolve
  rw [hc]
  dsimp only
  rw [if_neg hnot]

/-- C5: for a document whose sorted page-0 top-half candidates have a size
spread of at least 1, the title is the space-join of the accumulation the
claim describes (start at the first maximal-size candidate, at most two
lines, stop at a y0 gap over 2.5 times the previous size or a size under
0.7 times the maximum); the accumulation is nonempty, has at most two
lines, and starts with a maximal-size line. -/
theorem c5_title_size_spread (doc : Doc) (lines : List Line) (c : Line)
    (rest : List Line) (hc : titleCandidates doc lines = c :: rest)
    (hspread : 1 ≤ lineMaxSize c rest - lineMinSize c rest) :
    (titleResolve doc lines).1 =
      joinSpace ((titleSpecLines (c :: rest) (lineMaxSize c rest)).map
        Line.text) ∧
    titleSpecLines (c :: rest) (lineMaxSize c rest) ≠ [] ∧
    (titleSpecLines (c :: rest) (lineMaxSize c rest)).length ≤ 2 ∧
    (∀ f, (titleSpecLines (c :: rest) (lineMaxSize c rest)).head? = some f →
      f.style.1 = lineMaxSize c rest) := by
  refine ⟨?_, titleSpecLines_ne_nil c rest, titleSpecLines_len _ _,
    titleSpecLines_head _ _⟩
  rw [titleResolve_spread doc lines c rest hc (by omega)]
  rw [titleFromSpread_eq_spec]

/-- Witness for C5 at a concrete document with size spread 10. -/
theorem c5_witness :
    titleCandidates exDoc1 (allRetainedLines exDoc1) = [exL1, exL2, exL4] ∧
      1 ≤ lineMaxSize exL1 [exL2, exL4] - lineMinSize exL1 [exL2, exL4] ∧
      (titleResolve exDoc1 (allRetainedLines exDoc1)).1 =
        joinSpace ((titleSpecLines [exL1, exL2, exL4]
          (lineMaxSize exL1 [exL2, exL4])).map Line.text) :=
  ⟨by decide, by decide,
    (c5_title_size_spread exDoc1 (allRetainedLines exDoc1) exL1 [exL2, exL4]
      (by decide) (by decide)).1⟩

/-- C6: a line consumed by title resolution never appears in the final
outline: its identity is in the recorded id set, so it is removed from the
corpus before heading analysis, and every fragment the merge walk consumes
originates from a line of the post-removal corpus. -/
theorem c6_title_exclusive (doc : Doc) (l : Line)
    (h : lineId l ∈ titleIds doc) :
    l ∉ linesAfterTitle doc ∧
      ∀ hd ∈ headingFragments doc, ∃ l2 ∈ linesAfterTitle doc, ∃ n : Nat,
        hd = mkHeading l2 n := by
  constructor
  · intro hmem
    unfold linesAfterTitle at hmem
    cases hids : titleIds doc with
    | nil => rw [hids] at h; simp at h
    | cons x r =>
      rw [hids] at h hmem
      have hmem2 : l ∈ allRetainedLines doc ∧ ¬ lineId l = x ∧
          lineId l ∉ r := by
        simpa [removeTitleLines] using hmem
      rcases List.mem_cons.mp h with h1 | h1
      · exact hmem2.2.1 h1
      · exact hmem2.2.2 h1
  · intro hd hmem
    unfold headingFragments at hmem
    rw [mem_sortBy] at hmem
    unfold pipelineRefined at hmem
    rcases mem_refineHeadings hmem with ⟨c2, hc2, _, heq⟩
    refine ⟨c2, ?_, hd.level, heq⟩
    unfold pipelineInitial initialCandidates at hc2
    exact (List.mem_filter.mp hc2).1

/-- Witness for C6 at a concrete document whose title consumes two lines. -/
theorem c6_witness :
    lineId exL1 ∈ titleIds exDoc1 ∧
      (exL1 ∉ linesAfterTitle exDoc1 ∧
        ∀ hd ∈ headingFragments exDoc1, ∃ l2 ∈ linesAfterTitle exDoc1,
          ∃ n : Nat, hd = mkHeading l2 n) :=
  ⟨by decide, c6_title_exclusive exDoc1 exL1 (by decide)⟩

/-! ## Body-style lemmas -/

theorem styleCounts_eq_tally (lines : List Line) :
    styleCounts lines = tally (lines.map Line.style) := by
  unfold styleCounts tally
  rw [List.foldl_map]

theorem mem_tally_spec {α : Type} [DecidableEq α] {ls : List α}
    {p : α × Nat} (hp : p ∈ tally ls) : p.1 ∈ ls ∧ p.2 = cnt p.1 ls := by
  have h1 : alookup p.1 (tally ls) = some p.2 :=
    mem_alookup (keysNodup_tally ls) hp
  rw [alookup_tally] at h1
  by_cases h : 0 < cnt p.1 ls
  · rw [if_pos h] at h1
    injection h1 with h2
    exact ⟨(cnt_pos_iff_mem _ _).mp h, h2.symm⟩
  · rw [if_neg h] at h1
    exact Option.noConfusion h1

theorem mem_tally_of_mem {α : Type} [DecidableEq α] {ls : List α} {x : α}
    (h : x ∈ ls) : (x, cnt x ls) ∈ tally ls := by
  apply alookup_mem
  rw [alookup_tally]
  rw [if_pos ((cnt_pos_iff_mem _ _).mpr h)]

theorem bodyStyle_nonbold (ls : List Style) (hx : ∃ s ∈ ls, s.2 = false) :
    (bodyStyle (tally ls)).2 = false ∧ bodyStyle (tally ls) ∈ ls ∧
      ∀ s : Style, s.2 = false →
        cnt s ls ≤ cnt (bodyStyle (tally ls)) ls := by
  rcases hx with ⟨x, hxm, hxb⟩
  have hmxf : (x, cnt x ls) ∈ (tally ls).filter (fun p => !p.1.2) :=
    List.mem_filter.mpr ⟨mem_tally_of_mem hxm, by simp [hxb]⟩
  cases hfm : firstMax ((tally ls).filter (fun p => !p.1.2)) with
  | none =>
    rw [firstMax_eq_none_iff] at hfm
    rw [hfm] at hmxf
    simp at hmxf
  | some p =>
    have hbody : bodyStyle (tally ls) = p.1 := by
      unfold bodyStyle
      dsimp only
      rw [hfm]
    have hpf := List.mem_filter.mp (firstMax_mem hfm)
    rcases mem_tally_spec hpf.1 with ⟨hpm, hpc⟩
    have hpb : p.1.2 = false := by simpa using hpf.2
    rw [hbody]
    refine ⟨hpb, hpm, ?_⟩
    intro s hsb
    by_cases hsm : s ∈ ls
    · have hmsf : (s, cnt s ls) ∈ (tally ls).filter (fun q => !q.1.2) :=
        List.mem_filter.mpr ⟨mem_tally_of_mem hsm, by simp [hsb]⟩
      have hle := firstMax_le _ hfm (s, cnt s ls) hmsf
      omega
    · have h0 : cnt s ls = 0 := by
        by_contra hne
        exact hsm ((cnt_pos_iff_mem s ls).mp (Nat.pos_of_ne_zero hne))
      omega

theorem bodyStyle_all_bold (ls : List Style) (hne : ls ≠ [])
    (hb : ∀ s ∈ ls, s.2 = true) :
    bodyStyle (tally ls) ∈ ls ∧
      ∀ s : Style, cnt s ls ≤ cnt (bodyStyle (tally ls)) ls := by
  have hfilter : (tally ls).filter (fun p => !p.1.2) = [] := by
    apply List.filter_eq_nil_iff.mpr
    intro p hp
    rcases mem_tally_spec hp with ⟨hpm, _⟩
    simp [hb p.1 hpm]
  rcases List.exists_mem_of_ne_nil ls hne with ⟨x, hxm⟩
  have hx : (x, cnt x ls) ∈ tally ls := mem_tally_of_mem hxm
  cases hfm : firstMax (tally ls) with
  | none =>
    rw [firstMax_eq_none_iff] at hfm
    rw [hfm] at hx
    simp at hx
  | some p =>
    have hbody : bodyStyle (tally ls) = p.1 := by
      unfold bodyStyle
      dsimp only
      rw [hfilter]
      simp only [firstMax]
      rw [hfm]
    rcases mem_tally_spec (firstMax_mem hfm) with ⟨hpm, hpc⟩
    rw [hbody]
    refine ⟨hpm, ?_⟩
    intro s
    by_cases hsm : s ∈ ls
    · have hle := firstMax_le _ hfm (s, cnt s ls) (mem_tally_of_mem hsm)
      omega
    · have h0 : cnt s ls = 0 := by
        by_contra hne2
        exact hsm ((cnt_pos_iff_mem s ls).mp (Nat.pos_of_ne_zero hne2))
      omega

/-- C1 (amended): the deduced body style is computed from the style
frequencies of ALL retained lines, including the lines later consumed by
title resolution (the counts are accumulated during extraction, before
title-line removal).  On any line list those counts behave as stated: the
most frequent non-bold style wins when a non-bold style occurs, else the
most frequent style overall, and the default is (10, false) on no lines. -/
theorem c1_body_style_amended (doc : Doc) (lines : List Line) :
    pipelineBodyStyle doc = bodyStyle (styleCounts (allRetainedLines doc)) ∧
    ((∃ x ∈ lines, x.style.2 = false) →
      (bodyStyle (styleCounts lines)).2 = false ∧
      bodyStyle (styleCounts lines) ∈ lines.map Line.style ∧
      ∀ s : Style, s.2 = false →
        cnt s (lines.map Line.style) ≤
          cnt (bodyStyle (styleCounts lines)) (lines.map Line.style)) ∧
    ((lines ≠ [] ∧ ∀ x ∈ lines, x.style.2 = true) →
      bodyStyle (styleCounts lines) ∈ lines.map Line.style ∧
      ∀ s : Style,
        cnt s (lines.map Line.style) ≤
          cnt (bodyStyle (styleCounts lines)) (lines.map Line.style)) ∧
    bodyStyle (styleCounts ([] : List Line)) = (10, false) := by
  refine ⟨rfl, ?_, ?_, rfl⟩
  · intro hx
    rw [styleCounts_eq_tally]
    apply bodyStyle_nonbold
    rcases hx with ⟨x, hxm, hxb⟩
    exact ⟨x.style, List.mem_map.mpr ⟨x, hxm, rfl⟩, hxb⟩
  · intro hx
    rcases hx with ⟨hne, hb⟩
    rw [styleCounts_eq_tally]
    apply bodyStyle_all_bold
    · intro hmapnil
      exact hne (List.map_eq_nil_iff.mp hmapnil)
    · intro s hs
      rcases List.mem_map.mp hs with ⟨x, hxm, hxe⟩
      rw [← hxe]
      exact hb x hxm

/-- C1 counterexample: at this concrete document the pipeline's deduced
body style is (20, false), driven by the two consumed title lines, while
the computation the claim describes — over the retained non-title lines
only — yields (10, false). -/
theorem c1_counterexample :
    pipelineBodyStyle exDoc1 = (20, false) ∧
      bodyStyleClaim exDoc1 = (10, false) ∧
      pipelineBodyStyle exDoc1 ≠ bodyStyleClaim exDoc1 :=
  ⟨by decide, by decide, by decide⟩

/-- Witness for C1 at a concrete one-line list with a non-bold style. -/
theorem c1_witness :
    (∃ x ∈ [exL4], x.style.2 = false) ∧
      (bodyStyle (styleCounts [exL4])).2 = false ∧
      bodyStyle (styleCounts [exL4]) ∈ [exL4].map Line.style :=
  ⟨by decide,
    ((c1_body_style_amended exDoc1 [exL4]).2.1 (by decide)).1,
    ((c1_body_style_amended exDoc1 [exL4]).2.1 (by decide)).2.1⟩

/-! ## Header/footer ignore-set lemmas -/

theorem extractLine_not_ignored {pn : Nat} {ig : List String}
    {tabs : List Rect} {nc : Nat} {mid : ℚ} {ln : SrcLine} {l : Line}
    (h : extractLine pn ig tabs nc mid ln = some l) : l.text ∉ ig := by
  simp only [extractLine] at h
  split_ifs at h with h1 h2 h3 h4 h5 h6 h7 <;>
    first
      | exact Option.noConfusion h
      | (injection h with h8; subst h8; exact h4)

theorem extractAllLines_not_ignored (doc : Doc) (ig : List String) :
    ∀ l ∈ extractAllLines doc ig, l.text ∉ ig := by
  intro l hl
  unfold extractAllLines at hl
  rcases List.mem_flatMap.mp hl with ⟨pi, _, hpl⟩
  simp only [extractPageLines] at hpl
  rcases List.mem_flatMap.mp hpl with ⟨b, _, hbl⟩
  cases hbs : b.lines with
  | none => rw [hbs] at hbl; simp at hbl
  | some lns =>
    rw [hbs] at hbl
    rcases List.mem_filterMap.mp hbl with ⟨ln, _, hsome⟩
    exact extractLine_not_ignored hsome

/-- C2 (amended): for a document of at least four pages, the ignore set
contains exactly the normalised band texts of the scanned middle-half pages
(length between 6 and 99 inclusive, no trailing period) whose number of
qualifying block occurrences — counted per block, so several blocks on one
page all count — reaches 0.4 times the scanned page count; and it is
applied to the corpus lines of every page of the document. -/
theorem c2_ignore_set_amended (doc : Doc) (h4 : 4 ≤ doc.length) :
    (∀ t : String, t ∈ detect_headers_and_footers doc ↔
      ((hfEnd doc - hfStart doc : ℕ) : ℚ) * (4/10) ≤
        (cnt t (hfTexts doc) : ℚ)) ∧
    ∀ l ∈ extractAllLines doc (detect_headers_and_footers doc),
      l.text ∉ detect_headers_and_footers doc := by
  constructor
  · intro t
    have hlt : ¬ (doc.length < 4) := by omega
    unfold detect_headers_and_footers
    rw [if_neg hlt]
    constructor
    · intro hm
      rcases List.mem_filterMap.mp hm with ⟨p, hp, hcond⟩
      by_cases hc : ((hfEnd doc - hfStart doc : ℕ) : ℚ) * (4/10) ≤ (p.2 : ℚ)
      · rw [if_pos hc] at hcond
        injection hcond with h5
        subst h5
        rcases mem_tally_spec hp with ⟨_, hpc⟩
        rw [← hpc]
        exact hc
      · rw [if_neg hc] at hcond
        exact Option.noConfusion hcond
    · intro hle
      have hscan : 2 ≤ hfEnd doc - hfStart doc := by
        unfold hfEnd hfStart
        omega
      have hpos : 0 < cnt t (hfTexts doc) := by
        by_contra h0
        have h00 : cnt t (hfTexts doc) = 0 := by omega
        rw [h00] at hle
        have h2 : (2 : ℚ) ≤ ((hfEnd doc - hfStart doc : ℕ) : ℚ) := by
          exact_mod_cast hscan
        have h3 : (0 : ℚ) < ((hfEnd doc - hfStart doc : ℕ) : ℚ) * (4/10) := by
          nlinarith
        rw [Nat.cast_zero] at hle
        linarith
      have hmem : (t, cnt t (hfTexts doc)) ∈ tally (hfTexts doc) :=
        mem_tally_of_mem ((cnt_pos_iff_mem _ _).mp hpos)
      apply List.mem_filterMap.mpr
      refine ⟨(t, cnt t (hfTexts doc)), hmem, ?_⟩
      rw [if_pos hle]
  · exact extractAllLines_not_ignored doc _

/-- C2 counterexample: on this eight-page document the 99-character band
text occurs in two blocks of a single scanned page.  The code's ignore set
contains it (two block occurrences reach the threshold 1.6), while the set
the claim describes does not: the text occupies only one page (1 < 1.6) and
its length 99 is not strictly between 5 and 99. -/
theorem c2_counterexample :
    exT99 ∈ detect_headers_and_footers exDoc2 ∧
      exT99 ∉ ignoreSetClaim exDoc2 ∧
      exT99.length = 99 ∧
      ((hfScanned exDoc2).filter
        (fun p => decide (exT99 ∈ pageBandTexts p))).length = 1 ∧
      hfEnd exDoc2 - hfStart exDoc2 = 4 ∧
      cnt exT99 (hfTexts exDoc2) = 2 :=
  ⟨by decide, by decide, by decide, by decide, by decide, by decide⟩

/-- Witness for C2 at the concrete eight-page document. -/
theorem c2_witness :
    4 ≤ exDoc2.length ∧
      (exT99 ∈ detect_headers_and_footers exDoc2 ↔
        ((hfEnd exDoc2 - hfStart exDoc2 : ℕ) : ℚ) * (4/10) ≤
          (cnt exT99 (hfTexts exDoc2) : ℚ)) :=
  ⟨by decide, (c2_ignore_set_amended exDoc2 (by decide)).1 exT99⟩

/-- Witness for C10: a line with the same page and y0 as a consumed line,
but different text and x-extent, is removed. -/
theorem c10_witness :
    exL1b.page = exL1.page ∧ exL1b.y0 = exL1.y0 ∧
      lineId exL1 ∈ [((0 : Nat), (10 : ℚ))] ∧
      exL1b ∉ removeTitleLines [exL1b] [((0 : Nat), (10 : ℚ))] :=
  ⟨rfl, rfl, by decide,
    c10_removal_keyed_on_identity [exL1b] [((0 : Nat), (10 : ℚ))] exL1 exL1b
      rfl rfl (by decide)⟩

end PdfOutline
